import Mathlib

/-!
# Simple Machine Language interpreter (`interp.c`)

A shallow embedding of `execute`, `push`, `pop`, `print_stack`, `parse` and
`main` of `interp.c`, followed by theorems about them. The definitions whose
comment begins "Follows the specification" are written from the words of the
specification and are what the code is compared with.

Modelling conventions.

* A C string buffer is a `List Char`; the end of the list stands for the
  terminating NUL. A buffer that `strtok` has written to holds NUL characters
  in the middle, exactly as the C buffer does.
* The linked list behind `stack` is a `List Int` with the top first, and
  `malloc` is taken to succeed.
* A run that leaves the behaviour C defines ends in `Outcome.undefined`. The
  places where `execute` can do so are kept as they stand in the source:
  - `cmd` is `char cmd[2][10]`, one object of twenty bytes; `strcpy(cmd[i], t)`
    writes `t` and its NUL from byte `10 * i` on. A copy into row 0 of ten to
    nineteen characters stays inside `cmd`, runs on into row 1 and is carried
    out; a copy that does not end inside the twenty bytes (into row 1 with ten
    characters or more, or into a row `cmd[2]` or beyond) writes outside the
    array;
  - a row of `cmd` is `none` until the first `strcpy` reaches it, and a read
    of such a row reads an uninitialised array;
  - a read of `program[k]` with `k` outside the line store;
  - `dup` reads `stack->top->data` through a null `top` on the empty stack;
  - `pop`, on a stack of two or more nodes, calls `free(stack->top)` and then
    reads `stack->top->next`, a field of the node it has released; the loop of
    `main` that releases the stack does the same with every node;
  - `parse` passes the result of `strtok(line, "\n")` to `strcpy`, also when
    it is a null pointer.
* The buffers of the line store hold what `malloc` delivers until `parse`
  writes them; that content is a parameter (`fresh`) of `main`.
* `main` allocates `MAX_FILESIZE` buffers of `MAX_LINESIZE` bytes, and `fgets`
  takes at most `MAX_LINESIZE - 1` characters of a line of the file, so a
  longer line reaches the store in pieces. The predicate `heldStore` says that
  a store has this shape; `parse` delivers such a store and every pass of
  `execute` keeps it (`parse_heldStore`, `run_heldStore`). Where a statement
  depends on the length of a line or on the number of buffers, it is about
  states with such a store or about the store that `parse` delivers.
* `errno == ERANGE` is the field `erange`; nothing in the program clears it.
* The test `end == num` of the source compares the address held in `end` with
  an `int`. The address of a local array is not the value of an `int` on the
  LP64 targets the program is built for, so this disjunct is taken to be false.
* The sum of `add` and the conversion of the `long` of `strtol` to `int` are
  reduced to 32 bits in two's complement.
* Text written by `printf` is appended to the field `out`.
-/

namespace Interp

/-! ## Constants -/

/-- The number of line buffers `main` allocates. -/
abbrev MAX_FILESIZE : Nat := 500

/-- The size in bytes of one line buffer. -/
abbrev MAX_LINESIZE : Nat := 15

/-- The number of rows of `cmd`. -/
abbrev CMD_ROWS : Nat := 2

/-- The size in bytes of one row of `cmd`. -/
abbrev CMD_WIDTH : Nat := 10

/-- The largest value of a C `long` (LP64). -/
def LONG_MAX : Int := 9223372036854775807

/-- The smallest value of a C `long` (LP64). -/
def LONG_MIN : Int := -9223372036854775808

/-! ## Integers -/

/-- Conversion of a wider integer to `int`: the value modulo `2^32`, in the
two's complement range. -/
def toInt32 (v : Int) : Int := (v + 2147483648) % 4294967296 - 2147483648

/-- The decimal digit character of `d`, for `d < 10`. -/
def digitChar (d : Nat) : Char := Char.ofNat (d + 48)

/-- The decimal digits of a natural number, most significant first. The first
argument bounds the number of digits. -/
def natDigits : Nat → Nat → List Char
  | 0, _ => []
  | f + 1, n => if n < 10 then [digitChar n] else natDigits f (n / 10) ++ [digitChar (n % 10)]

/-- What `printf` writes for `%d`. -/
def decimal (v : Int) : List Char :=
  if v < 0 then '-' :: natDigits (v.natAbs + 1) v.natAbs else natDigits (v.natAbs + 1) v.natAbs

/-! ## `strtol` -/

/-- The characters `isspace` accepts in the C locale. -/
def isspace (c : Char) : Bool :=
  c == ' ' || c == '\t' || c == '\n' || c == '\x0b' || c == '\x0c' || c == '\r'

/-- The characters `0` to `9`. -/
def isdigit (c : Char) : Bool := decide (48 ≤ c.toNat) && decide (c.toNat ≤ 57)

/-- The value of a run of decimal digits, accumulated from the left. -/
def digitsValue (ds : List Char) : Nat := ds.foldl (fun a c => a * 10 + (c.toNat - 48)) 0

/-- What a call `strtol(s, &end, 10)` delivers. -/
structure StrtolResult where
  /-- The `long` returned. -/
  value : Int
  /-- The text from `*end` on. -/
  endp : List Char
  /-- Whether the call set `errno` to `ERANGE`. -/
  range : Bool
  deriving DecidableEq

/-- Splits an optional sign off the front of a numeral. -/
def splitSign : List Char → Bool × List Char
  | [] => (false, [])
  | c :: cs => if c = '-' then (true, cs) else if c = '+' then (false, cs) else (false, c :: cs)

/-- The library function `strtol` in base 10: white space, an optional sign,
then digits. Without a digit no conversion is made and `end` is the start of
the text. A value outside `long` is clamped and reported through `errno`. -/
def strtol (s : List Char) : StrtolResult :=
  let body := splitSign (s.dropWhile isspace)
  let ds := body.2.takeWhile isdigit
  if ds = [] then ⟨0, s, false⟩
  else
    let v : Int := if body.1 then -(digitsValue ds : Int) else (digitsValue ds : Int)
    let rest := body.2.dropWhile isdigit
    if LONG_MAX < v then ⟨LONG_MAX, rest, true⟩
    else if v < LONG_MIN then ⟨LONG_MIN, rest, true⟩
    else ⟨v, rest, false⟩

/-! ## `strtok` -/

/-- What one call of `strtok` delivers. -/
structure StrtokResult where
  /-- The token returned, `none` for a null pointer. -/
  token : Option (List Char)
  /-- The bytes the call moved over, as the call leaves them. -/
  passed : List Char
  /-- The bytes from the saved position on. -/
  save : List Char
  deriving DecidableEq

/-- The library function `strtok` with the single delimiter `d`, started at the
bytes `s`: it skips delimiters, returns a null pointer at the end of the string,
and otherwise ends the token by overwriting the delimiter after it with NUL. -/
def strtok (d : Char) (s : List Char) : StrtokResult :=
  let lead := s.takeWhile (fun c => c == d)
  match s.dropWhile (fun c => c == d) with
  | [] => ⟨none, lead, []⟩
  | c :: cs =>
    if c = '\x00' then ⟨none, lead, c :: cs⟩
    else
      let tok := (c :: cs).takeWhile (fun x => x != d && x != '\x00')
      match (c :: cs).dropWhile (fun x => x != d && x != '\x00') with
      | [] => ⟨some tok, lead ++ tok, []⟩
      | e :: es =>
        if e = d then ⟨some tok, lead ++ tok ++ ['\x00'], es⟩
        else ⟨some tok, lead ++ tok, e :: es⟩

/-- The calls `strtok(line, d)`, `strtok(NULL, d)`, ... up to the first null
pointer: the tokens in order and the buffer as the calls leave it. The first
argument bounds the number of calls. -/
def strtokAll (d : Char) : Nat → List Char → List (List Char) × List Char
  | 0, s => ([], s)
  | n + 1, s =>
    match (strtok d s).token with
    | none => ([], (strtok d s).passed ++ (strtok d s).save)
    | some t =>
      (t :: (strtokAll d n (strtok d s).save).1,
        (strtok d s).passed ++ (strtokAll d n (strtok d s).save).2)

/-- The tokens of a line of `execute` (delimiter `" "`) and the line buffer
afterwards. Every token takes at least one byte, so `length + 1` calls reach
the null pointer. -/
def tokenize (line : List Char) : List (List Char) × List Char :=
  strtokAll ' ' (line.length + 1) line

/-! ## The machine -/

/-- The array `char cmd[2][10]`: twenty bytes, row 1 directly behind row 0.
Each row is recorded as the characters from its first byte up to the first NUL
of the row; row 0 is recorded with all ten characters when it holds no NUL, and
the string that starts at `cmd[0]` then runs on into row 1. The bytes behind
the NUL of a row are not recorded: every `strcpy` into `cmd` writes from the
first byte of a row up to a NUL, so no read reaches them. -/
structure Cmd where
  /-- The characters of row 0, `none` while uninitialised. -/
  row0 : Option (List Char)
  /-- The string in `cmd[1]`, `none` while uninitialised. -/
  row1 : Option (List Char)
  deriving DecidableEq

/-- The string that starts at `cmd[0]`, as `strcmp` and `printf` read it: row 0
up to its NUL, and when row 0 holds ten characters and no NUL, those ten
followed by the string in row 1. -/
def Cmd.string0 (cmd : Cmd) : Option (List Char) :=
  match cmd.row0 with
  | none => none
  | some r =>
    if r.length < CMD_WIDTH then some r
    else
      match cmd.row1 with
      | none => none
      | some s => some (r ++ s)

/-- The state `execute` works on: the globals `program`, `stack`, `errno`, the
locals `lineNum` and `cmd`, and the text printed so far. -/
structure Machine where
  /-- The line buffers; `program[k]` is the buffer with index `k`. In the
  states of the program there are `MAX_FILESIZE` of them, each with a string of
  fewer than `MAX_LINESIZE` characters (`heldStore`). -/
  program : List (List Char)
  /-- The stack, top first. -/
  stack : List Int
  /-- The line being executed. -/
  lineNum : Nat
  /-- The token array. -/
  cmd : Cmd
  /-- Whether `errno == ERANGE`. -/
  erange : Bool
  /-- The text written to standard output. -/
  out : List Char
  deriving DecidableEq

/-- How a run of `execute` stands. -/
inductive Outcome where
  /-- The loop goes on with this state. -/
  | running (m : Machine)
  /-- The function `execute` returned `code`. -/
  | returned (code : Nat) (m : Machine)
  /-- The function `pop` called `exit(EXIT_FAILURE)`. -/
  | exited (m : Machine)
  /-- The run left the behaviour C defines. -/
  | undefined
  deriving DecidableEq

/-- The function `push`: a new node in front of the list. -/
def push (num : Int) (stack : List Int) : List Int := num :: stack

/-- What a call of `pop` comes to. -/
inductive Popped where
  /-- The stack was empty: the message is printed and `exit(EXIT_FAILURE)` is
  called. -/
  | exits
  /-- The value returned and the stack left. -/
  | value (ret : Int) (rest : List Int)
  /-- The top node was released and its `next` field read afterwards. -/
  | freedRead
  deriving DecidableEq

/-- The function `pop`, branch by branch. On the empty stack it prints its
message and exits. On a stack of one node it releases the node and sets `top`
to null. On a longer stack it runs `free(stack->top)` and then
`stack->top = stack->top->next`, a read of the node it has just released. -/
def pop (stack : List Int) : Popped :=
  match stack with
  | [] => .exits
  | [x] => .value x []
  | _ :: _ :: _ => .freedRead

/-- The text `pop` prints on an empty stack. -/
def popMessage : List Char := "Cannot pop from an empty stack\n".toList

/-- The loop of `print_stack` over the nodes. -/
def printNodes : List Int → List Char
  | [] => []
  | x :: rest => (' ' :: decimal x ++ [',']) ++ printNodes rest

/-- The function `print_stack`: the text it writes. -/
def print_stack (stack : List Int) : List Char :=
  match stack with
  | [] => "The stack is empty\n".toList
  | x :: rest => "The stack:".toList ++ printNodes (x :: rest) ++ ['\n']

/-- One `strcpy(cmd[i], token)`: the token and its NUL are written from byte
`i * 10` of `cmd` on. The result is `none` when the copy leaves the twenty
bytes of `cmd`. A copy into row 0 of ten characters or more stays inside `cmd`
up to nineteen characters and runs on into row 1. -/
def strcpyCmd (cmd : Cmd) (i : Nat) (token : List Char) : Option Cmd :=
  if i * CMD_WIDTH + token.length + 1 ≤ CMD_ROWS * CMD_WIDTH then
    if i = 0 then
      if token.length < CMD_WIDTH then some { cmd with row0 := some token }
      else some { row0 := some (token.take CMD_WIDTH), row1 := some (token.drop CMD_WIDTH) }
    else some { cmd with row1 := some token }
  else none

/-- The `do ... while` loop of `execute`: every token is copied to `cmd[i]` and
`i` is counted up. -/
def copyTokens : Cmd → Nat → List (List Char) → Option (Cmd × Nat)
  | cmd, i, [] => some (cmd, i)
  | cmd, i, t :: ts =>
    match strcpyCmd cmd i t with
    | none => none
    | some c => copyTokens c (i + 1) ts

/-- The message for an operand that is not an int. -/
def notIntMessage (lineNum : Nat) (tok : List Char) : List Char :=
  "Line ".toList ++ decimal lineNum ++ ": Token ".toList ++ tok ++ " is not an int.\n".toList

/-- The message for a rejected jump target. -/
def badJumpMessage (lineNum : Nat) (num : Int) : List Char :=
  "Line ".toList ++ decimal lineNum ++ ": Cannot jump to line ".toList ++ decimal num ++ "\n".toList

/-- The message for a line of more than two tokens. -/
def tooManyMessage (lineNum : Nat) : List Char :=
  "Line ".toList ++ decimal lineNum ++ ": Syntax Error, cannot have more than two tokens.\n".toList

/-- The message for an unknown command. -/
def badCommandMessage (tok : List Char) : List Char :=
  "Error: ".toList ++ tok ++ " is not a valid command\n".toList

/-- The operand conversion that `push`, `ifeq` and `jump` share:
`num = strtol(cmd[1], &end, 10)` and the test
`end == num || *end != '\0' || errno == ERANGE`. -/
def readOperand (m : Machine) : Except Outcome (Int × Machine) :=
  match m.cmd.row1 with
  | none => .error .undefined
  | some tok =>
    let r := strtol tok
    let m1 := { m with erange := m.erange || r.range }
    if r.endp ≠ [] ∨ m1.erange = true then
      .error (.returned 2 { m1 with out := m1.out ++ notIntMessage m.lineNum tok })
    else .ok (toInt32 r.value, m1)

/-- The chain of `strcmp` tests of `execute` on `cmd[0]`, up to but not
including `lineNum++`. -/
def dispatch (m : Machine) : Except Outcome Machine :=
  match m.cmd.string0 with
  | none => .error .undefined
  | some c0 =>
    if c0 = "push".toList then
      match readOperand m with
      | .error o => .error o
      | .ok (num, m1) => .ok { m1 with stack := push num m1.stack }
    else if c0 = "pop".toList then
      match pop m.stack with
      | .exits => .error (.exited { m with out := m.out ++ popMessage })
      | .freedRead => .error .undefined
      | .value _ rest => .ok { m with stack := rest }
    else if c0 = "add".toList then
      match pop m.stack with
      | .exits => .error (.exited { m with out := m.out ++ popMessage })
      | .freedRead => .error .undefined
      | .value a s1 =>
        match pop s1 with
        | .exits => .error (.exited { m with stack := s1, out := m.out ++ popMessage })
        | .freedRead => .error .undefined
        | .value b s2 => .ok { m with stack := push (toInt32 (a + b)) s2 }
    else if c0 = "ifeq".toList then
      match readOperand m with
      | .error o => .error o
      | .ok (num, m1) =>
        if num < 1 ∨ (MAX_FILESIZE : Int) < num then
          .error (.returned 4 { m1 with out := m1.out ++ badJumpMessage m.lineNum num })
        else
          match pop m1.stack with
          | .exits => .error (.exited { m1 with out := m1.out ++ popMessage })
          | .freedRead => .error .undefined
          | .value top rest =>
            if top = 0 then .ok { m1 with stack := rest, lineNum := (num - 1).toNat }
            else .ok { m1 with stack := rest }
    else if c0 = "jump".toList then
      match readOperand m with
      | .error o => .error o
      | .ok (num, m1) =>
        if num < 1 ∨ (MAX_FILESIZE : Int) < num then
          .error (.returned 4 { m1 with out := m1.out ++ badJumpMessage m.lineNum num })
        else .ok { m1 with lineNum := (num - 1).toNat }
    else if c0 = "print".toList then
      .ok { m with out := m.out ++ print_stack m.stack }
    else if c0 = "dup".toList then
      match m.stack with
      | [] => .error .undefined
      | x :: rest => .ok { m with stack := push x (x :: rest) }
    else
      .error (.returned 1 { m with out := m.out ++ badCommandMessage c0 })

/-- The end of a pass once `cmd` is filled and counted: the dispatch on
`cmd[0]`, then `i = 0; lineNum++`. -/
def finish (m : Machine) : Outcome :=
  match dispatch m with
  | .error o => o
  | .ok m2 => .running { m2 with lineNum := m2.lineNum + 1 }

/-- One pass through the `while` loop of `execute`: the tokens of
`program[lineNum]` are split off (which writes to the line buffer), copied to
`cmd`, counted and dispatched, and `lineNum` is incremented. -/
def step (m : Machine) : Outcome :=
  match m.program[m.lineNum]? with
  | none => .undefined
  | some line =>
    let m0 := { m with program := m.program.set m.lineNum (tokenize line).2 }
    match (tokenize line).1 with
    | [] => .returned 0 m0
    | t :: ts =>
      match copyTokens m.cmd 0 (t :: ts) with
      | none => .undefined
      | some (cmd, i) =>
        let m1 := { m0 with cmd := cmd }
        if 2 < i then .returned 3 { m1 with out := m1.out ++ tooManyMessage m.lineNum }
        else finish m1

/-- The `while` loop of `execute`, for at most the given number of passes. -/
def run : Nat → Machine → Outcome
  | 0, m => .running m
  | n + 1, m =>
    match step m with
    | .running m1 => run n m1
    | o => o

/-- The state in which `main` calls `execute`: an empty stack, `lineNum = 1`,
`cmd` uninitialised, `errno` as the C start-up leaves it, nothing printed. -/
def initial (program : List (List Char)) : Machine :=
  { program := program, stack := [], lineNum := 1, cmd := ⟨none, none⟩,
    erange := false, out := [] }

/-- The function `execute` on the line store `program`, for at most `fuel`
passes of its loop. -/
def execute (fuel : Nat) (program : List (List Char)) : Outcome :=
  run fuel (initial program)

/-! ## Program texts and observations -/

/-- The line `push v`, the operand written in decimal. -/
def pushLine (v : Int) : List Char := "push".toList ++ ' ' :: decimal v

/-- The line `jump L`, the operand written in decimal. -/
def jumpLine (L : Int) : List Char := "jump".toList ++ ' ' :: decimal L

/-- The text expected of `print` on a non-empty stack: `The stack:`, then each
value from the top down after a space and before a comma, then a newline. -/
def rendering (values : List Int) : List Char :=
  "The stack:".toList ++ (values.map fun v => ' ' :: decimal v ++ [',']).flatten ++ ['\n']

/-- Follows the words of the specification, not the code: a base-10 integer
numeral is an optional sign followed by one or more decimal digits and nothing
else. -/
def isNumeral : List Char → Bool
  | [] => false
  | c :: cs =>
    if c = '-' ∨ c = '+' then !cs.isEmpty && cs.all isdigit else (c :: cs).all isdigit

/-- A token as `strtok` with delimiter `" "` delivers it: not empty, and free
of spaces and NUL. -/
def isToken (w : List Char) : Bool :=
  !w.isEmpty && w.all (fun c => c != ' ' && c != '\x00')

/-- The machine an outcome carries, if it carries one. -/
def Outcome.machine? : Outcome → Option Machine
  | .running m => some m
  | .returned _ m => some m
  | .exited m => some m
  | .undefined => none

/-- The seven mnemonics that `execute` compares `cmd[0]` with. -/
def mnemonics : List (List Char) :=
  ["push".toList, "pop".toList, "add".toList, "ifeq".toList, "jump".toList,
   "print".toList, "dup".toList]

/-- The value `execute` returned, if it returned. -/
def Outcome.code? : Outcome → Option Nat
  | .returned c _ => some c
  | _ => none

/-! ## `parse` and `main` -/

/-- The value of `EXIT_SUCCESS` in `<stdlib.h>`. -/
abbrev EXIT_SUCCESS : Nat := 0

/-- The value of `EXIT_FAILURE` in `<stdlib.h>`. -/
abbrev EXIT_FAILURE : Nat := 1

/-- The bytes one `fgets` takes from the input when its buffer has room for
`k` of them: up to and including the first newline. Delivers the bytes taken
and the input left. -/
def readChars : Nat → List Char → List Char × List Char
  | 0, s => ([], s)
  | _ + 1, [] => ([], [])
  | k + 1, c :: cs =>
    if c = '\n' then ([c], cs) else (c :: (readChars k cs).1, (readChars k cs).2)

/-- The library function `fgets(line, size, fp)`: a null pointer at the end of
the input, otherwise at most `size - 1` bytes. -/
def fgets (size : Nat) (input : List Char) : Option (List Char × List Char) :=
  match input with
  | [] => none
  | _ :: _ => some (readChars (size - 1) input)

/-- The loop of `parse`: `strcpy(program[lineNum], strtok(line, "\n"))` for
every `fgets` that delivers bytes. The result is `none` when `strtok` returns a
null pointer (nothing but newlines was read), which `strcpy` then reads from,
and when `lineNum` is outside the store. The first argument bounds the number
of `fgets` calls. -/
def parseLoop : Nat → List Char → Nat → List (List Char) → Option (List (List Char))
  | 0, _, _, program => some program
  | n + 1, input, lineNum, program =>
    match fgets MAX_LINESIZE input with
    | none => some program
    | some (line, rest) =>
      match (strtok '\n' line).token with
      | none => none
      | some t =>
        if lineNum < program.length then
          parseLoop n rest (lineNum + 1) (program.set lineNum t)
        else none

/-- The function `parse` on the text of the file and the line store. Every
`fgets` that delivers bytes takes at least one, so `length + 1` calls reach
the end of the input. -/
def parse (input : List Char) (program : List (List Char)) : Option (List (List Char)) :=
  parseLoop (input.length + 1) input 1 program

/-- How the process ends. -/
inductive Process where
  /-- The process called `exit(status)`. -/
  | exit (status : Nat)
  /-- The process left the behaviour C defines. -/
  | undefined
  /-- The loop of `execute` was still going when the passes counted ran out. -/
  | running
  deriving DecidableEq

/-- The `MAX_FILESIZE` line buffers that `main` allocates; `fresh k` is what
buffer `k` holds as `malloc` delivers it. -/
def buffers (fresh : Nat → List Char) : List (List Char) :=
  (List.range MAX_FILESIZE).map fresh

/-- The function `main`, for `argc`, the text of the file (`none` when `fopen`
fails), the content of the fresh line buffers, and a bound on the passes of
`execute`. After `execute` returns, a non-empty stack is released by the loop
`free(current); current = current->next;`, which reads each node after
releasing it; then the status is `EXIT_FAILURE` for every non-zero `error` and
`EXIT_SUCCESS` otherwise. -/
def main (argc : Nat) (file : Option (List Char)) (fresh : Nat → List Char) (fuel : Nat) :
    Process :=
  if argc ≠ 2 then .exit EXIT_FAILURE
  else
    match file with
    | none => .exit EXIT_FAILURE
    | some text =>
      match parse text (buffers fresh) with
      | none => .undefined
      | some program =>
        match execute fuel program with
        | .running _ => .running
        | .undefined => .undefined
        | .exited _ => .exit EXIT_FAILURE
        | .returned error m =>
          match m.stack with
          | _ :: _ => .undefined
          | [] => if error ≠ 0 then .exit EXIT_FAILURE else .exit EXIT_SUCCESS

/-! ## The specification's decoded program -/

/-- Follows the specification (section 3), not the code: the instruction a
line stands for. -/
inductive Instruction where
  /-- The instruction `push n`. -/
  | push (n : Int)
  /-- The instruction `pop`. -/
  | pop
  /-- The instruction `add`. -/
  | add
  /-- The instruction `ifeq L`. -/
  | ifeq (target : Int)
  /-- The instruction `jump L`. -/
  | jump (target : Int)
  /-- The instruction `print`. -/
  | print
  /-- The instruction `dup`. -/
  | dup
  /-- A line that is no instruction. -/
  | invalid
  deriving DecidableEq

/-- Follows the specification (section 4.4, column Effect), not the code: what
an instruction other than a control transfer does to the stack, `none` where
its precondition fails. -/
def effect : Instruction → List Int → Option (List Int)
  | .push n, s => some (n :: s)
  | .pop, _ :: s => some s
  | .add, a :: b :: s => some ((a + b) :: s)
  | .print, s => some s
  | .dup, x :: s => some (x :: x :: s)
  | _, _ => none

/-- Follows the specification (sections 4.2 and 4.4), not the code: the
instruction obtained from the tokens of a line's text as loaded. One token is
an instruction for `pop`, `add`, `print`, `dup`; two tokens are one for `push`,
`ifeq`, `jump` when the operand is an integer. -/
def decodeTokens : List (List Char) → Instruction
  | [t] =>
    if t = "pop".toList then .pop
    else if t = "add".toList then .add
    else if t = "print".toList then .print
    else if t = "dup".toList then .dup
    else .invalid
  | [t, op] =>
    if (strtol op).endp = [] ∧ (strtol op).range = false then
      if t = "push".toList then .push (strtol op).value
      else if t = "ifeq".toList then .ifeq (strtol op).value
      else if t = "jump".toList then .jump (strtol op).value
      else .invalid
    else .invalid
  | _ => .invalid

/-- Follows the specification (section 9), not the code: the one-time decode
pass, an array of instructions indexed by line number. -/
def decodeAll (program : List (List Char)) : List Instruction :=
  program.map fun line => decodeTokens (tokenize line).1

/-- The state of the specification's engine: program counter and stack. -/
structure Session where
  /-- The program counter. -/
  pc : Nat
  /-- The stack, top first. -/
  stack : List Int
  deriving DecidableEq

/-- Follows the specification (section 4.4), not the code: one instruction of
the engine that runs over the decoded array; `none` when the engine stops
(no instruction at `pc`, or a fatal error). -/
def decodedStep (code : List Instruction) (s : Session) : Option Session :=
  match code[s.pc]? with
  | none => none
  | some (.jump L) =>
    if L < 1 ∨ (MAX_FILESIZE : Int) < L then none else some { s with pc := L.toNat }
  | some (.ifeq L) =>
    if L < 1 ∨ (MAX_FILESIZE : Int) < L then none
    else
      match s.stack with
      | [] => none
      | top :: rest =>
        if top = 0 then some { pc := L.toNat, stack := rest }
        else some { pc := s.pc + 1, stack := rest }
  | some i =>
    match effect i s.stack with
    | none => none
    | some st => some { pc := s.pc + 1, stack := st }

/-- The engine over the decoded array, for at most the given number of
instructions: the state it is in when it stops or the count runs out. -/
def decodedRun (code : List Instruction) : Nat → Session → Session
  | 0, s => s
  | n + 1, s =>
    match decodedStep code s with
    | none => s
    | some s1 => decodedRun code n s1

/-- The line of an instruction that takes no operand, and of `push n`. -/
def lineOf : Instruction → List Char
  | .push n => pushLine n
  | .pop => "pop".toList
  | .add => "add".toList
  | .print => "print".toList
  | .dup => "dup".toList
  | .ifeq L => "ifeq".toList ++ ' ' :: decimal L
  | .jump L => jumpLine L
  | .invalid => []

/-- A run of `n` spaces. -/
def spaces (n : Nat) : List Char := List.replicate n ' '

/-- The text of a file: the given lines, each ended by a newline. -/
def fileText (lines : List (List Char)) : List Char :=
  (lines.map fun l => l ++ ['\n']).flatten

/-- A line of a file that `parse` stores as it stands: it is not empty, holds
no newline and no NUL, and is short enough for one `fgets` to take it together
with its newline (at most thirteen characters). -/
def isLine (l : List Char) : Bool :=
  !l.isEmpty && l.all (fun c => c != '\n' && c != '\x00') && decide (l.length + 1 < MAX_LINESIZE)

/-- The line store as `main` and `parse` hand it to `execute`: `MAX_FILESIZE`
buffers, each holding a string of fewer than `MAX_LINESIZE` characters. -/
def heldStore (program : List (List Char)) : Prop :=
  program.length = MAX_FILESIZE ∧ ∀ line ∈ program, line.length < MAX_LINESIZE

/-- Follows the specification, not the code: the effects of a list of
instructions applied in order, `none` as soon as a precondition fails. -/
def effects : List Instruction → List Int → Option (List Int)
  | [], s => some s
  | i :: is, s =>
    match effect i s with
    | none => none
    | some s1 => effects is s1

/-- The instructions and stacks on which `execute` stays inside defined
behaviour without a control transfer: `push` of an operand that fits `cmd[1]`,
`print`, `dup` on a non-empty stack, and `pop` on a stack of one node. -/
def definedEffect : Instruction → List Int → Option (List Int)
  | .push n, s => if (decimal n).length < CMD_WIDTH then some (n :: s) else none
  | .pop, [_] => some []
  | .print, s => some s
  | .dup, x :: s => some (x :: x :: s)
  | _, _ => none

/-- The effects of a list of such instructions, applied in order. -/
def definedEffects : List Instruction → List Int → Option (List Int)
  | [], s => some s
  | i :: is, s =>
    match definedEffect i s with
    | none => none
    | some s1 => definedEffects is s1

/-! ## Lemmas on the library functions -/

theorem takeWhile_append_stop {p : Char → Bool} (w : List Char) (x : Char) (r : List Char)
    (hw : ∀ c ∈ w, p c = true) (hx : p x = false) :
    (w ++ x :: r).takeWhile p = w := by
  induction w with
  | nil => simp [List.takeWhile, hx]
  | cons a t ih =>
    have ha : p a = true := hw a (List.mem_cons_self _ _)
    have ht : ∀ c ∈ t, p c = true := fun c hc => hw c (List.mem_cons_of_mem _ hc)
    simp [List.takeWhile, ha, ih ht]

theorem dropWhile_append_stop {p : Char → Bool} (w : List Char) (x : Char) (r : List Char)
    (hw : ∀ c ∈ w, p c = true) (hx : p x = false) :
    (w ++ x :: r).dropWhile p = x :: r := by
  induction w with
  | nil => simp [List.dropWhile, hx]
  | cons a t ih =>
    have ha : p a = true := hw a (List.mem_cons_self _ _)
    have ht : ∀ c ∈ t, p c = true := fun c hc => hw c (List.mem_cons_of_mem _ hc)
    simp [List.dropWhile, ha, ih ht]

theorem takeWhile_all {p : Char → Bool} (w : List Char) (hw : ∀ c ∈ w, p c = true) :
    w.takeWhile p = w := by
  induction w with
  | nil => rfl
  | cons a t ih =>
    have ha : p a = true := hw a (List.mem_cons_self _ _)
    have ht : ∀ c ∈ t, p c = true := fun c hc => hw c (List.mem_cons_of_mem _ hc)
    simp [List.takeWhile, ha, ih ht]

theorem dropWhile_all {p : Char → Bool} (w : List Char) (hw : ∀ c ∈ w, p c = true) :
    w.dropWhile p = [] := by
  induction w with
  | nil => rfl
  | cons a t ih =>
    have ha : p a = true := hw a (List.mem_cons_self _ _)
    have ht : ∀ c ∈ t, p c = true := fun c hc => hw c (List.mem_cons_of_mem _ hc)
    simp [List.dropWhile, ha, ih ht]

theorem isToken_ne_nil {w : List Char} (h : isToken w = true) : w ≠ [] := by
  intro hw; subst hw; simp [isToken] at h

theorem isToken_mem {w : List Char} (h : isToken w = true) :
    ∀ c ∈ w, (c != ' ' && c != '\x00') = true := by
  simp only [isToken, Bool.and_eq_true, List.all_eq_true] at h
  intro c hc
  simpa using h.2 c hc

/-- The call of `strtok` on a token that ends the string. -/
theorem strtok_last (w : List Char) (h : isToken w = true) :
    strtok ' ' w = ⟨some w, w, []⟩ := by
  obtain ⟨c, cs, rfl⟩ := List.exists_cons_of_ne_nil (isToken_ne_nil h)
  have hm := isToken_mem h
  have hc := hm c (List.mem_cons_self _ _)
  simp only [Bool.and_eq_true, bne_iff_ne, ne_eq] at hc
  have hb : (c == ' ') = false := by simp [hc.1]
  have h1 : ((c :: cs).dropWhile fun x => x == ' ') = c :: cs := by
    simp [List.dropWhile, hb]
  have h2 : ((c :: cs).takeWhile fun x => x == ' ') = [] := by
    simp [List.takeWhile, hb]
  have h3 := takeWhile_all (c :: cs) hm
  have h4 := dropWhile_all (c :: cs) hm
  simp only [strtok, h1, h2, hc.2, if_false, h3, h4, List.nil_append]

/-- The call of `strtok` on a token that a space follows. -/
theorem strtok_space (w r : List Char) (h : isToken w = true) :
    strtok ' ' (w ++ ' ' :: r) = ⟨some w, w ++ ['\x00'], r⟩ := by
  obtain ⟨c, cs, rfl⟩ := List.exists_cons_of_ne_nil (isToken_ne_nil h)
  have hm := isToken_mem h
  have hc := hm c (List.mem_cons_self _ _)
  simp only [Bool.and_eq_true, bne_iff_ne, ne_eq] at hc
  have hb : (c == ' ') = false := by simp [hc.1]
  have h1 : ((c :: (cs ++ ' ' :: r)).dropWhile fun x => x == ' ') = c :: (cs ++ ' ' :: r) := by
    simp [List.dropWhile, hb]
  have h2 : ((c :: (cs ++ ' ' :: r)).takeWhile fun x => x == ' ') = [] := by
    simp [List.takeWhile, hb]
  have h3 := takeWhile_append_stop (c :: cs) ' ' r hm (by decide)
  have h4 := dropWhile_append_stop (c :: cs) ' ' r hm (by decide)
  simp only [List.cons_append] at h3 h4
  rw [List.cons_append]
  simp only [strtok, h1, h2, hc.2, if_false, h3, h4, List.nil_append, if_true,
    List.cons_append]

theorem strtok_nil : strtok ' ' [] = ⟨none, [], []⟩ := rfl

/-- A line that is one token: one token is delivered and nothing is written. -/
theorem tokenize_one (w : List Char) (h : isToken w = true) :
    tokenize w = ([w], w) := by
  obtain ⟨c, cs, rfl⟩ := List.exists_cons_of_ne_nil (isToken_ne_nil h)
  simp only [tokenize, List.length_cons, strtokAll, strtok_last _ h, strtok_nil,
    List.append_nil]

/-- A line of two tokens with one space between them: both are delivered and
the space is overwritten with NUL. -/
theorem tokenize_two (w1 w2 : List Char) (h1 : isToken w1 = true) (h2 : isToken w2 = true) :
    tokenize (w1 ++ ' ' :: w2) = ([w1, w2], w1 ++ '\x00' :: w2) := by
  obtain ⟨c, cs, rfl⟩ := List.exists_cons_of_ne_nil (isToken_ne_nil h1)
  obtain ⟨d, ds, rfl⟩ := List.exists_cons_of_ne_nil (isToken_ne_nil h2)
  simp only [tokenize, List.length_cons, List.length_append, List.cons_append]
  rw [show cs.length + (ds.length + 1 + 1) + 1 + 1 = (cs.length + ds.length + 1) + 1 + 1 + 1 by omega]
  have e1 := strtok_space (c :: cs) (d :: ds) h1
  simp only [List.cons_append] at e1
  simp only [strtokAll, e1, strtok_last _ h2, strtok_nil, List.append_nil, List.cons_append,
    List.nil_append, List.append_assoc]

/-- A call of `strtok` that delivers a token leaves fewer bytes to scan. -/
theorem strtok_save_length (d : Char) (s : List Char) (t : List Char)
    (h : (strtok d s).token = some t) : (strtok d s).save.length < s.length := by
  have hsub := (List.dropWhile_sublist (l := s) (fun c => c == d)).length_le
  have hhead := List.head?_dropWhile_not (fun c => c == d) s
  unfold strtok at h ⊢
  simp only at h ⊢
  cases h1 : s.dropWhile (fun c => c == d) with
  | nil => rw [h1] at h; simp at h
  | cons c cs =>
    rw [h1] at h hsub hhead
    simp only [List.length_cons] at hsub
    simp only [List.head?_cons, Option.elim] at hhead
    by_cases hc : c = '\x00'
    · simp [hc] at h
    · simp only [hc, if_false]
      have hp : (fun x => x != d && x != '\x00') c = true := by
        simp only [Bool.and_eq_true, bne_iff_ne, ne_eq]
        refine ⟨?_, hc⟩
        intro hcd
        rw [hcd] at hhead
        simp at hhead
      have hdrop : (c :: cs).dropWhile (fun x => x != d && x != '\x00')
          = cs.dropWhile (fun x => x != d && x != '\x00') :=
        List.dropWhile_cons_of_pos hp
      have hsub2 := (List.dropWhile_sublist (l := cs)
        (fun x => x != d && x != '\x00')).length_le
      rw [hdrop]
      cases h2 : cs.dropWhile (fun x => x != d && x != '\x00') with
      | nil => simp only [List.length_nil]; omega
      | cons e es =>
        rw [h2] at hsub2
        simp only [List.length_cons] at hsub2
        by_cases he : e = d
        · simp only [he, if_true]; omega
        · simp only [he, if_false, List.length_cons]; omega

/-- More calls than the line has bytes change nothing: the bound of `tokenize`
is never what ends the calls. -/
theorem strtokAll_fuel (d : Char) (n : Nat) : ∀ (s : List Char) (k : Nat),
    s.length < n → strtokAll d (n + k) s = strtokAll d n s := by
  induction n with
  | zero => intro s k h; omega
  | succ n ih =>
    intro s k h
    rw [show n + 1 + k = (n + k) + 1 by omega]
    simp only [strtokAll]
    cases ht : (strtok d s).token with
    | none => rfl
    | some t =>
      have hl := strtok_save_length d s t ht
      simp only
      rw [ih _ k (by omega)]

/-! ## Lemmas on one pass of the loop -/

theorem set_same {α : Type} (l : List α) (i : Nat) (x : α) (h : l[i]? = some x) :
    l.set i x = l := by
  induction l generalizing i with
  | nil => rfl
  | cons a t ih =>
    cases i with
    | zero => simp at h; simp [h]
    | succ j => simp at h; simp [ih j h]

/-- A copy into `cmd[0]` of a token that fits the row. -/
theorem strcpyCmd_zero (c : Cmd) (t : List Char) (h : t.length < CMD_WIDTH) :
    strcpyCmd c 0 t = some { c with row0 := some t } := by
  have h1 : t.length < 10 := h
  have h2 : 0 * 10 + t.length + 1 ≤ 2 * 10 := by omega
  simp only [strcpyCmd, h2, h1, if_true]

/-- A copy into `cmd[0]` of ten to nineteen characters runs on into `cmd[1]`. -/
theorem strcpyCmd_zero_long (c : Cmd) (t : List Char) (h : CMD_WIDTH ≤ t.length)
    (h20 : t.length < CMD_ROWS * CMD_WIDTH) :
    strcpyCmd c 0 t = some ⟨some (t.take CMD_WIDTH), some (t.drop CMD_WIDTH)⟩ := by
  have h1 : ¬ t.length < 10 := by
    have : 10 ≤ t.length := h
    omega
  have h2 : 0 * 10 + t.length + 1 ≤ 2 * 10 := by
    have : t.length < 2 * 10 := h20
    omega
  simp only [strcpyCmd, h2, h1, if_true, if_false]

/-- A copy into `cmd[1]` of a token that fits the row. -/
theorem strcpyCmd_one (c : Cmd) (t : List Char) (h : t.length < CMD_WIDTH) :
    strcpyCmd c 1 t = some { c with row1 := some t } := by
  have h1 : t.length < 10 := h
  have h2 : 1 * 10 + t.length + 1 ≤ 2 * 10 := by omega
  simp only [strcpyCmd, h2, if_true, show ¬ (1 = 0) by decide, if_false]

/-- A copy into `cmd[1]` of ten characters or more leaves `cmd`. -/
theorem strcpyCmd_one_none (c : Cmd) (t : List Char) (h : CMD_WIDTH ≤ t.length) :
    strcpyCmd c 1 t = none := by
  have h1 : 10 ≤ t.length := h
  have h2 : ¬ (1 * 10 + t.length + 1 ≤ 2 * 10) := by omega
  simp only [strcpyCmd, h2, if_false]

/-- There is no row `cmd[2]`: a copy to it or beyond leaves `cmd`. -/
theorem strcpyCmd_beyond (c : Cmd) (i : Nat) (t : List Char) (h : CMD_ROWS ≤ i) :
    strcpyCmd c i t = none := by
  have h1 : 2 ≤ i := h
  have h2 : ¬ (i * 10 + t.length + 1 ≤ 2 * 10) := by omega
  simp only [strcpyCmd, h2, if_false]

/-- The string at `cmd[0]` when row 0 holds its NUL. -/
theorem string0_short (c : Cmd) (r : List Char) (h : c.row0 = some r)
    (hl : r.length < CMD_WIDTH) : c.string0 = some r := by
  have h1 : r.length < 10 := hl
  simp only [Cmd.string0, h, h1, if_true]

/-- A pass over a line that is a single token that fits `cmd[0]`. -/
theorem step_one (m : Machine) (w : List Char) (hw : isToken w = true)
    (hl : w.length < CMD_WIDTH) (h : m.program[m.lineNum]? = some w) :
    step m = finish { m with cmd := { m.cmd with row0 := some w } } := by
  simp only [step, h, tokenize_one w hw, set_same _ _ _ h, copyTokens, strcpyCmd_zero _ w hl,
    finish]
  simp

/-- A pass over a line of two tokens that fit the rows of `cmd`. -/
theorem step_two (m : Machine) (w1 w2 : List Char) (h1 : isToken w1 = true)
    (h2 : isToken w2 = true) (hl1 : w1.length < CMD_WIDTH) (hl2 : w2.length < CMD_WIDTH)
    (h : m.program[m.lineNum]? = some (w1 ++ ' ' :: w2)) :
    step m = finish { m with program := m.program.set m.lineNum (w1 ++ '\x00' :: w2),
                             cmd := ⟨some w1, some w2⟩ } := by
  simp only [step, h, tokenize_two w1 w2 h1 h2, copyTokens, strcpyCmd_zero _ w1 hl1,
    Nat.zero_add, strcpyCmd_one _ w2 hl2, finish]
  simp

/-! ## Decimal numerals -/

theorem digitChar_isdigit (d : Nat) (h : d < 10) : isdigit (digitChar d) = true := by
  interval_cases d <;> decide

theorem digitChar_value (d : Nat) (h : d < 10) : (digitChar d).toNat - 48 = d := by
  interval_cases d <;> decide

theorem digitsValue_snoc (ds : List Char) (c : Char) :
    digitsValue (ds ++ [c]) = digitsValue ds * 10 + (c.toNat - 48) := by
  simp [digitsValue, List.foldl_append]

theorem natDigits_ne_nil (f n : Nat) (h : n < f) : natDigits f n ≠ [] := by
  cases f with
  | zero => omega
  | succ f =>
    unfold natDigits
    split <;> simp

theorem natDigits_isdigit (f : Nat) : ∀ n, n < f → ∀ c ∈ natDigits f n, isdigit c = true := by
  induction f with
  | zero => intro n h; omega
  | succ f ih =>
    intro n h c hc
    unfold natDigits at hc
    split at hc
    · simp only [List.mem_singleton] at hc
      subst hc
      exact digitChar_isdigit n (by omega)
    · rcases List.mem_append.1 hc with h1 | h1
      · exact ih (n / 10) (by omega) c h1
      · simp only [List.mem_singleton] at h1
        subst h1
        exact digitChar_isdigit _ (Nat.mod_lt _ (by decide))

theorem natDigits_value (f : Nat) : ∀ n, n < f → digitsValue (natDigits f n) = n := by
  induction f with
  | zero => intro n h; omega
  | succ f ih =>
    intro n h
    unfold natDigits
    split
    · simp [digitsValue, digitChar_value n (by omega)]
    · rw [digitsValue_snoc, ih (n / 10) (by omega), digitChar_value _ (Nat.mod_lt _ (by decide))]
      omega

theorem natDigits_bound (f : Nat) : ∀ n, n < f → n < 10 ^ (natDigits f n).length := by
  induction f with
  | zero => intro n h; omega
  | succ f ih =>
    intro n h
    unfold natDigits
    split
    · simp; omega
    · have := ih (n / 10) (by omega)
      rw [List.length_append, List.length_singleton, pow_succ]
      omega

theorem isdigit_facts (c : Char) (h : isdigit c = true) :
    isspace c = false ∧ c ≠ '-' ∧ c ≠ '+' ∧ c ≠ ' ' ∧ c ≠ '\x00' := by
  simp only [isdigit, Bool.and_eq_true, decide_eq_true_eq] at h
  refine ⟨?_, ?_, ?_, ?_, ?_⟩
  · simp only [isspace, Bool.or_eq_false_iff, beq_eq_false_iff_ne, ne_eq]
    refine ⟨⟨⟨⟨⟨?_, ?_⟩, ?_⟩, ?_⟩, ?_⟩, ?_⟩ <;> (intro hc; subst hc; revert h; decide)
  all_goals (intro hc; subst hc; revert h; decide)

theorem strtol_digits (ds : List Char) (hne : ds ≠ []) (hd : ∀ c ∈ ds, isdigit c = true)
    (hmax : (digitsValue ds : Int) ≤ LONG_MAX) :
    strtol ds = ⟨(digitsValue ds : Int), [], false⟩ := by
  obtain ⟨c, cs, rfl⟩ := List.exists_cons_of_ne_nil hne
  obtain ⟨hs, hm, hp, -, -⟩ := isdigit_facts c (hd c (List.mem_cons_self _ _))
  have e1 : (c :: cs).dropWhile isspace = c :: cs := by simp [List.dropWhile, hs]
  have e2 : splitSign (c :: cs) = (false, c :: cs) := by simp [splitSign, hm, hp]
  have e3 := takeWhile_all (c :: cs) hd
  have e4 := dropWhile_all (c :: cs) hd
  have h5 : ¬ (LONG_MAX < (digitsValue (c :: cs) : Int)) := not_lt.2 hmax
  have h6 : ¬ ((digitsValue (c :: cs) : Int) < LONG_MIN) := by
    have : (0 : Int) ≤ (digitsValue (c :: cs) : Int) := Int.ofNat_nonneg _
    simp only [LONG_MIN]; omega
  simp [strtol, e1, e2, e3, e4, h5, h6]

theorem strtol_neg_digits (ds : List Char) (hne : ds ≠ []) (hd : ∀ c ∈ ds, isdigit c = true)
    (hmin : LONG_MIN ≤ -(digitsValue ds : Int)) :
    strtol ('-' :: ds) = ⟨-(digitsValue ds : Int), [], false⟩ := by
  have e1 : ('-' :: ds).dropWhile isspace = '-' :: ds := by
    simp [List.dropWhile, show isspace '-' = false by decide]
  have e2 : splitSign ('-' :: ds) = (true, ds) := by simp [splitSign]
  have e3 := takeWhile_all ds hd
  have e4 := dropWhile_all ds hd
  have h5 : ¬ (LONG_MAX < -(digitsValue ds : Int)) := by
    have : (0 : Int) ≤ (digitsValue ds : Int) := Int.ofNat_nonneg _
    simp only [LONG_MAX]; omega
  have h6 : ¬ (-(digitsValue ds : Int) < LONG_MIN) := not_lt.2 hmin
  simp [strtol, e1, e2, e3, e4, h5, h6, hne]

/-- The function `strtol` reads back what `%d` writes, for every `long`. -/
theorem strtol_decimal (v : Int) (hlo : LONG_MIN ≤ v) (hhi : v ≤ LONG_MAX) :
    strtol (decimal v) = ⟨v, [], false⟩ := by
  have hf : v.natAbs < v.natAbs + 1 := Nat.lt_succ_self _
  have hne := natDigits_ne_nil _ _ hf
  have hd := natDigits_isdigit _ _ hf
  have hv := natDigits_value _ _ hf
  unfold decimal
  split
  · rename_i hneg
    have := strtol_neg_digits _ hne hd (by rw [hv]; omega)
    rw [this, hv]
    congr 1
    omega
  · rename_i hpos
    have := strtol_digits _ hne hd (by rw [hv]; omega)
    rw [this, hv]
    congr 1
    omega

/-- What `%d` writes is a token. -/
theorem isToken_decimal (v : Int) : isToken (decimal v) = true := by
  have hf : v.natAbs < v.natAbs + 1 := Nat.lt_succ_self _
  have hne := natDigits_ne_nil _ _ hf
  have hd := natDigits_isdigit _ _ hf
  have hall : ∀ c ∈ natDigits (v.natAbs + 1) v.natAbs,
      (c != ' ') = true ∧ (c != '\x00') = true := by
    intro c hc
    obtain ⟨-, -, -, h1, h2⟩ := isdigit_facts c (hd c hc)
    simp [h1, h2]
  unfold decimal isToken
  split
  · simp only [List.isEmpty_cons, Bool.not_false, Bool.true_and, List.all_cons]
    simp only [Bool.and_eq_true, List.all_eq_true]
    exact ⟨by decide, hall⟩
  · simp only [Bool.and_eq_true, List.all_eq_true, Bool.not_eq_true', List.isEmpty_eq_false]
    exact ⟨by simpa using hne, hall⟩

/-- A numeral of at most nine characters is the numeral of a value that `int`
holds. -/
theorem decimal_short (v : Int) (h : (decimal v).length < CMD_WIDTH) :
    -1000000000 < v ∧ v < 1000000000 := by
  have hf : v.natAbs < v.natAbs + 1 := Nat.lt_succ_self _
  have hb := natDigits_bound _ _ hf
  have h10 : (decimal v).length < 10 := h
  unfold decimal at h10
  have hp : (10 : Nat) ^ (natDigits (v.natAbs + 1) v.natAbs).length ≤ 10 ^ 9 := by
    apply Nat.pow_le_pow_right (by decide)
    split at h10
    · simp only [List.length_cons] at h10; omega
    · omega
  have : v.natAbs < 1000000000 := lt_of_lt_of_le hb (by simpa using hp)
  omega

theorem toInt32_small (v : Int) (h1 : -2147483648 ≤ v) (h2 : v < 2147483648) :
    toInt32 v = v := by
  unfold toInt32
  omega

/-! ## Lemmas on the dispatch -/

theorem readOperand_ok (m : Machine) (op : List Char) (v : Int)
    (h1 : m.cmd.row1 = some op) (hv : strtol op = ⟨v, [], false⟩) (he : m.erange = false) :
    readOperand m = .ok (toInt32 v, m) := by
  cases m with
  | mk program stack lineNum cmd erange out =>
    simp only at h1 he
    subst he
    simp [readOperand, h1, hv]

theorem dispatch_push (m : Machine) (h0 : m.cmd.row0 = some "push".toList) :
    dispatch m = (match readOperand m with
      | .error o => .error o
      | .ok (num, m1) => .ok { m1 with stack := push num m1.stack }) := by
  have h0 := string0_short _ _ h0 (by decide)
  simp only [dispatch, h0, if_true]

theorem dispatch_pop (m : Machine) (h0 : m.cmd.row0 = some "pop".toList) :
    dispatch m = (match pop m.stack with
      | .exits => .error (.exited { m with out := m.out ++ popMessage })
      | .freedRead => .error .undefined
      | .value _ rest => .ok { m with stack := rest }) := by
  have h0 := string0_short _ _ h0 (by decide)
  simp only [dispatch, h0, show ¬ ("pop".toList = "push".toList) by decide, if_true, if_false]

theorem dispatch_add (m : Machine) (h0 : m.cmd.row0 = some "add".toList) :
    dispatch m = (match pop m.stack with
      | .exits => .error (.exited { m with out := m.out ++ popMessage })
      | .freedRead => .error .undefined
      | .value a s1 =>
        match pop s1 with
        | .exits => .error (.exited { m with stack := s1, out := m.out ++ popMessage })
        | .freedRead => .error .undefined
        | .value b s2 => .ok { m with stack := push (toInt32 (a + b)) s2 }) := by
  have h0 := string0_short _ _ h0 (by decide)
  simp only [dispatch, h0, show ¬ ("add".toList = "push".toList) by decide,
    show ¬ ("add".toList = "pop".toList) by decide, if_true, if_false]

theorem dispatch_ifeq (m : Machine) (h0 : m.cmd.row0 = some "ifeq".toList) :
    dispatch m = (match readOperand m with
      | .error o => .error o
      | .ok (num, m1) =>
        if num < 1 ∨ (MAX_FILESIZE : Int) < num then
          .error (.returned 4 { m1 with out := m1.out ++ badJumpMessage m.lineNum num })
        else
          match pop m1.stack with
          | .exits => .error (.exited { m1 with out := m1.out ++ popMessage })
          | .freedRead => .error .undefined
          | .value top rest =>
            if top = 0 then .ok { m1 with stack := rest, lineNum := (num - 1).toNat }
            else .ok { m1 with stack := rest }) := by
  have h0 := string0_short _ _ h0 (by decide)
  simp only [dispatch, h0, show ¬ ("ifeq".toList = "push".toList) by decide,
    show ¬ ("ifeq".toList = "pop".toList) by decide,
    show ¬ ("ifeq".toList = "add".toList) by decide, if_true, if_false]

theorem dispatch_jump (m : Machine) (h0 : m.cmd.row0 = some "jump".toList) :
    dispatch m = (match readOperand m with
      | .error o => .error o
      | .ok (num, m1) =>
        if num < 1 ∨ (MAX_FILESIZE : Int) < num then
          .error (.returned 4 { m1 with out := m1.out ++ badJumpMessage m.lineNum num })
        else .ok { m1 with lineNum := (num - 1).toNat }) := by
  have h0 := string0_short _ _ h0 (by decide)
  simp only [dispatch, h0, show ¬ ("jump".toList = "push".toList) by decide,
    show ¬ ("jump".toList = "pop".toList) by decide,
    show ¬ ("jump".toList = "add".toList) by decide,
    show ¬ ("jump".toList = "ifeq".toList) by decide, if_true, if_false]

theorem dispatch_print (m : Machine) (h0 : m.cmd.row0 = some "print".toList) :
    dispatch m = .ok { m with out := m.out ++ print_stack m.stack } := by
  have h0 := string0_short _ _ h0 (by decide)
  simp only [dispatch, h0, show ¬ ("print".toList = "push".toList) by decide,
    show ¬ ("print".toList = "pop".toList) by decide,
    show ¬ ("print".toList = "add".toList) by decide,
    show ¬ ("print".toList = "ifeq".toList) by decide,
    show ¬ ("print".toList = "jump".toList) by decide, if_true, if_false]

theorem dispatch_dup (m : Machine) (h0 : m.cmd.row0 = some "dup".toList) :
    dispatch m = (match m.stack with
      | [] => .error .undefined
      | x :: rest => .ok { m with stack := push x (x :: rest) }) := by
  have h0 := string0_short _ _ h0 (by decide)
  simp only [dispatch, h0, show ¬ ("dup".toList = "push".toList) by decide,
    show ¬ ("dup".toList = "pop".toList) by decide,
    show ¬ ("dup".toList = "add".toList) by decide,
    show ¬ ("dup".toList = "ifeq".toList) by decide,
    show ¬ ("dup".toList = "jump".toList) by decide,
    show ¬ ("dup".toList = "print".toList) by decide, if_true, if_false]

/-! ## Lemmas on the loop -/

theorem run_add (a b : Nat) : ∀ m : Machine,
    run (a + b) m = (match run a m with
      | .running m1 => run b m1
      | o => o) := by
  induction a with
  | zero => intro m; simp [run]
  | succ a ih =>
    intro m
    rw [show a + 1 + b = (a + b) + 1 by omega]
    simp only [run]
    cases hs : step m with
    | running m1 => simp only [ih m1]
    | returned c m1 => rfl
    | exited m1 => rfl
    | undefined => rfl

/-- A pass over `push` with an operand that `strtol` converts in full. -/
theorem step_push (m : Machine) (op : List Char) (v : Int) (hop : isToken op = true)
    (hl : op.length < CMD_WIDTH) (hv : strtol op = ⟨v, [], false⟩) (he : m.erange = false)
    (h : m.program[m.lineNum]? = some ("push".toList ++ ' ' :: op)) :
    step m = .running { m with
      program := m.program.set m.lineNum ("push".toList ++ '\x00' :: op),
      cmd := ⟨some "push".toList, some op⟩,
      stack := toInt32 v :: m.stack,
      lineNum := m.lineNum + 1 } := by
  rw [step_two m _ op (by decide) hop (by decide) hl h, finish, dispatch_push _ rfl]
  simp [readOperand, hv, he, push]

theorem printNodes_eq (s : List Int) :
    printNodes s = (s.map fun v => ' ' :: decimal v ++ [',']).flatten := by
  induction s with
  | nil => rfl
  | cons x t ih => simp [printNodes, ih]

/-- The passes over a block of `push` lines whose operands fit `cmd[1]`. -/
theorem run_pushes (vs : List Int) (hfit : ∀ v ∈ vs, (decimal v).length < CMD_WIDTH) :
    ∀ (m : Machine) (pre post : List (List Char)),
      m.program = pre ++ (vs.map pushLine ++ post) → m.lineNum = pre.length →
      m.erange = false →
      ∃ m1 pre1, run vs.length m = .running m1 ∧ m1.stack = vs.reverse ++ m.stack ∧
        m1.lineNum = pre1.length ∧ m1.erange = false ∧ m1.out = m.out ∧
        m1.program = pre1 ++ post := by
  induction vs with
  | nil =>
    intro m pre post hp hl he
    exact ⟨m, pre, rfl, by simp, hl, he, rfl, by simpa using hp⟩
  | cons v vs ih =>
    intro m pre post hp hl he
    have hv : (decimal v).length < CMD_WIDTH := hfit v (List.mem_cons_self _ _)
    have hrange := decimal_short v hv
    have hget : m.program[m.lineNum]? = some ("push".toList ++ ' ' :: decimal v) := by
      rw [hp, hl, List.getElem?_append_right (le_refl _)]
      simp [pushLine]
    have hst := step_push m (decimal v) v (isToken_decimal v) hv
      (strtol_decimal v (by simp only [LONG_MIN]; omega) (by simp only [LONG_MAX]; omega)) he hget
    rw [toInt32_small v (by omega) (by omega)] at hst
    obtain ⟨m1, pre1, h1, h2, h3, h4, h5, h6⟩ := ih
      (fun x hx => hfit x (List.mem_cons_of_mem _ hx))
      { m with
        program := m.program.set m.lineNum ("push".toList ++ '\x00' :: decimal v),
        cmd := ⟨some "push".toList, some (decimal v)⟩,
        stack := v :: m.stack,
        lineNum := m.lineNum + 1 }
      (pre ++ ["push".toList ++ '\x00' :: decimal v]) post
      (by
        simp only [hp, hl]
        rw [List.set_append_right _ _ (le_refl _)]
        simp)
      (by simp [hl]) he
    refine ⟨m1, pre1, ?_, ?_, h3, h4, h5, h6⟩
    · simp only [List.length_cons, run, hst]
      exact h1
    · rw [h2]; simp

/-! ## Operands that fit `cmd[1]` -/

theorem foldl_digits_bound (ds : List Char) (hd : ∀ c ∈ ds, isdigit c = true) :
    ∀ a : Nat, ds.foldl (fun a c => a * 10 + (c.toNat - 48)) a + 1 ≤ (a + 1) * 10 ^ ds.length := by
  induction ds with
  | nil => intro a; simp
  | cons c cs ih =>
    intro a
    have hc := hd c (List.mem_cons_self _ _)
    simp only [isdigit, Bool.and_eq_true, decide_eq_true_eq] at hc
    have h1 := ih (fun x hx => hd x (List.mem_cons_of_mem _ hx)) (a * 10 + (c.toNat - 48))
    simp only [List.foldl_cons, List.length_cons]
    refine le_trans h1 ?_
    rw [pow_succ, mul_comm (10 ^ cs.length) 10, ← mul_assoc]
    apply Nat.mul_le_mul_right
    omega

theorem digitsValue_lt (ds : List Char) (hd : ∀ c ∈ ds, isdigit c = true) :
    digitsValue ds < 10 ^ ds.length := by
  have := foldl_digits_bound ds hd 0
  simp only [zero_add, one_mul] at this
  exact this

theorem splitSign_length (s : List Char) : (splitSign s).2.length ≤ s.length := by
  cases s with
  | nil => simp [splitSign]
  | cons c cs =>
    simp only [splitSign]
    split
    · simp
    · split <;> simp

/-- An operand of at most nine characters is converted without a range error
and to a value of fewer than ten digits. -/
theorem strtol_short (op : List Char) (h : op.length < CMD_WIDTH) :
    (strtol op).range = false ∧ -1000000000 < (strtol op).value ∧
      (strtol op).value < 1000000000 := by
  have h10 : op.length < 10 := h
  have hlen : ((splitSign (op.dropWhile isspace)).2.takeWhile isdigit).length ≤ 9 := by
    have a1 := (List.takeWhile_sublist (l := (splitSign (op.dropWhile isspace)).2)
      isdigit).length_le
    have a2 := splitSign_length (op.dropWhile isspace)
    have a3 := (List.dropWhile_sublist (l := op) isspace).length_le
    omega
  have hd : ∀ c ∈ (splitSign (op.dropWhile isspace)).2.takeWhile isdigit, isdigit c = true :=
    fun c hc => List.mem_takeWhile_imp hc
  have hb := digitsValue_lt _ hd
  have hp : (10 : Nat) ^ ((splitSign (op.dropWhile isspace)).2.takeWhile isdigit).length
      ≤ 10 ^ 9 := Nat.pow_le_pow_right (by decide) hlen
  have hv : (digitsValue ((splitSign (op.dropWhile isspace)).2.takeWhile isdigit) : Int)
      < 1000000000 := by
    have : digitsValue ((splitSign (op.dropWhile isspace)).2.takeWhile isdigit)
        < 1000000000 := lt_of_lt_of_le hb (by simpa using hp)
    exact_mod_cast this
  have hn : (0 : Int)
      ≤ (digitsValue ((splitSign (op.dropWhile isspace)).2.takeWhile isdigit) : Int) :=
    Int.ofNat_nonneg _
  unfold strtol
  simp only [LONG_MAX, LONG_MIN]
  split
  · simp
  · split
    · split
      · omega
      · split
        · omega
        · simp; omega
    · split
      · omega
      · split
        · omega
        · simp; omega

/-- The operand conversion succeeds on a short operand that `strtol` reads to
its end, and delivers its value unchanged. -/
theorem readOperand_short (m : Machine) (op : List Char)
    (h1 : m.cmd.row1 = some op) (hl : op.length < CMD_WIDTH)
    (hend : (strtol op).endp = []) (he : m.erange = false) :
    readOperand m = .ok ((strtol op).value, m) := by
  obtain ⟨hr, hlo, hhi⟩ := strtol_short op hl
  have ht : toInt32 (strtol op).value = (strtol op).value :=
    toInt32_small _ (by omega) (by omega)
  cases m with
  | mk program stack lineNum cmd erange out =>
    simp only at h1 he
    subst he
    simp [readOperand, h1, hend, hr, ht]

/-- The operand conversion fails with code 2 on an operand that `strtol` does
not read to its end, and leaves the stack alone. -/
theorem readOperand_bad (m : Machine) (op : List Char)
    (h1 : m.cmd.row1 = some op) (hend : (strtol op).endp ≠ []) :
    ∃ m1, readOperand m = .error (.returned 2 m1) ∧ m1.stack = m.stack := by
  simp only [readOperand, h1, hend, ne_eq, not_false_eq_true, true_or, if_true]
  exact ⟨_, rfl, rfl⟩

/-- A pass over `jump` with a short operand that `strtol` reads to its end. -/
theorem step_jump (m : Machine) (op : List Char) (hop : isToken op = true)
    (hl : op.length < CMD_WIDTH) (hend : (strtol op).endp = []) (he : m.erange = false)
    (h : m.program[m.lineNum]? = some ("jump".toList ++ ' ' :: op)) :
    step m =
      if (strtol op).value < 1 ∨ (MAX_FILESIZE : Int) < (strtol op).value then
        .returned 4 { m with
          program := m.program.set m.lineNum ("jump".toList ++ '\x00' :: op),
          cmd := ⟨some "jump".toList, some op⟩,
          out := m.out ++ badJumpMessage m.lineNum (strtol op).value }
      else
        .running { m with
          program := m.program.set m.lineNum ("jump".toList ++ '\x00' :: op),
          cmd := ⟨some "jump".toList, some op⟩,
          lineNum := ((strtol op).value - 1).toNat + 1 } := by
  have hro := readOperand_short { m with
      program := m.program.set m.lineNum ("jump".toList ++ '\x00' :: op),
      cmd := ⟨some "jump".toList, some op⟩ } op rfl hl hend he
  rw [step_two m _ op (by decide) hop (by decide) hl h, finish, dispatch_jump _ rfl, hro]
  by_cases hc : (strtol op).value < 1 ∨ (MAX_FILESIZE : Int) < (strtol op).value
  · simp only [if_pos hc]
  · simp only [if_neg hc]

/-- The function `strtol` stops before the end of every operand that, after its
leading white space, is not a numeral. -/
theorem strtol_endp_ne_nil (op : List Char) (hne : op ≠ [])
    (hbad : isNumeral (op.dropWhile isspace) = false) : (strtol op).endp ≠ [] := by
  intro hend
  have key : (splitSign (op.dropWhile isspace)).2.takeWhile isdigit ≠ [] →
      (splitSign (op.dropWhile isspace)).2.dropWhile isdigit = [] →
      isNumeral (op.dropWhile isspace) = true := by
    intro hds hall
    rw [List.dropWhile_eq_nil_iff] at hall
    cases hs : op.dropWhile isspace with
    | nil => rw [hs] at hds; simp [splitSign] at hds
    | cons c cs =>
      rw [hs] at hds hall
      simp only [splitSign] at hds hall
      simp only [isNumeral]
      by_cases h1 : c = '-'
      · simp only [h1, if_true] at hds hall
        simp only [h1, true_or, if_true, Bool.and_eq_true, List.all_eq_true,
          Bool.not_eq_true', List.isEmpty_eq_false]
        refine ⟨?_, hall⟩
        intro hcs; rw [hcs] at hds; simp at hds
      · by_cases h2 : c = '+'
        · simp only [h1, h2, if_true, if_false] at hds hall
          simp only [h2, or_true, if_true, Bool.and_eq_true, List.all_eq_true,
            Bool.not_eq_true', List.isEmpty_eq_false]
          refine ⟨?_, hall⟩
          intro hcs; rw [hcs] at hds; simp at hds
        · simp only [h1, h2, if_false] at hds hall
          simp only [h1, h2, or_self, if_false, List.all_eq_true]
          exact hall
  have hshape : (strtol op).endp =
      if (splitSign (op.dropWhile isspace)).2.takeWhile isdigit = [] then op
      else (splitSign (op.dropWhile isspace)).2.dropWhile isdigit := by
    unfold strtol
    simp only
    split_ifs <;> rfl
  rw [hshape] at hend
  by_cases hds : (splitSign (op.dropWhile isspace)).2.takeWhile isdigit = []
  · rw [if_pos hds] at hend
    exact hne hend
  · rw [if_neg hds] at hend
    rw [key hds hend] at hbad
    cases hbad

/-! ## `errno` along a run -/

theorem readOperand_erange (m m1 : Machine) (num : Int)
    (h : readOperand m = .ok (num, m1)) : m1.erange = false := by
  unfold readOperand at h
  split at h
  · cases h
  · simp only at h
    split at h
    · cases h
    · rename_i hc
      injection h with h
      injection h with h1 h2
      subst h2
      simp only [not_or, Bool.not_eq_true] at hc
      exact hc.2

theorem readOperand_error (m : Machine) (o : Outcome) (h : readOperand m = .error o) :
    ∀ m1, o ≠ .running m1 := by
  intro m1 ho
  subst ho
  unfold readOperand at h
  split at h
  · cases h
  · simp only at h
    split at h <;> cases h

theorem dispatch_erange (m m2 : Machine) (he : m.erange = false)
    (h : dispatch m = .ok m2) : m2.erange = false := by
  unfold dispatch at h
  split at h
  · cases h
  · split_ifs at h
    · split at h
      · cases h
      · rename_i hr
        have h3 := readOperand_erange _ _ _ hr
        injection h with h; subst h
        exact h3
    · split at h
      · cases h
      · cases h
      · injection h with h; subst h; exact he
    · split at h
      · cases h
      · cases h
      · split at h
        · cases h
        · cases h
        · injection h with h; subst h; exact he
    · split at h
      · cases h
      · rename_i hr
        have h3 := readOperand_erange _ _ _ hr
        split_ifs at h
        split at h
        · cases h
        · cases h
        · split_ifs at h <;> (injection h with h; subst h; exact h3)
    · split at h
      · cases h
      · rename_i hr
        have h3 := readOperand_erange _ _ _ hr
        split_ifs at h
        injection h with h; subst h
        exact h3
    · injection h with h; subst h; exact he
    · split at h
      · cases h
      · injection h with h; subst h; exact he

theorem dispatch_error (m : Machine) (o : Outcome) (h : dispatch m = .error o) :
    ∀ m1, o ≠ .running m1 := by
  intro m1 ho
  subst ho
  unfold dispatch at h
  split at h
  · cases h
  · split_ifs at h
    · split at h
      · rename_i hr
        injection h with h; subst h
        exact readOperand_error _ _ hr m1 rfl
      · cases h
    · split at h <;> cases h
    · split at h
      · cases h
      · cases h
      · split at h <;> cases h
    · split at h
      · rename_i hr
        injection h with h; subst h
        exact readOperand_error _ _ hr m1 rfl
      · split_ifs at h
        · cases h
        · split at h
          · cases h
          · cases h
          · split_ifs at h
    · split at h
      · rename_i hr
        injection h with h; subst h
        exact readOperand_error _ _ hr m1 rfl
      · split_ifs at h
        cases h
    · split at h <;> cases h
    · cases h

/-- A pass that goes on leaves `errno` different from `ERANGE` if it was so
before. -/
theorem step_erange (m m1 : Machine) (he : m.erange = false)
    (h : step m = .running m1) : m1.erange = false := by
  unfold step at h
  split at h
  · cases h
  · simp only at h
    split at h
    · cases h
    · split at h
      · cases h
      · split_ifs at h
        unfold finish at h
        split at h
        · rename_i hd
          subst h
          exact absurd rfl (dispatch_error _ _ hd m1)
        · rename_i hd
          have h3 := dispatch_erange _ _ (by exact he) hd
          injection h with h; subst h
          exact h3

/-- In every state that `execute` reaches, `errno` is not `ERANGE`. -/
theorem run_erange (n : Nat) : ∀ (m m1 : Machine), m.erange = false →
    run n m = .running m1 → m1.erange = false := by
  induction n with
  | zero =>
    intro m m1 he h
    simp only [run] at h
    injection h with h; subst h; exact he
  | succ n ih =>
    intro m m1 he h
    simp only [run] at h
    split at h
    · rename_i m2 hs
      exact ih m2 m1 (step_erange m m2 he hs) h
    · rename_i hne
      rw [h] at hne
      exact absurd rfl (hne m1)

/-! ## Lemmas on the line store and on the dispatch -/

theorem buffers_length (fresh : Nat → List Char) : (buffers fresh).length = MAX_FILESIZE := by
  simp [buffers]

theorem readOperand_program (m : Machine) :
    (∀ num m1, readOperand m = .ok (num, m1) → m1.program = m.program ∧ m1.stack = m.stack) ∧
    (∀ o m1, readOperand m = .error o → o.machine? = some m1 → m1.program = m.program) := by
  unfold readOperand
  constructor
  · intro num m1 h
    split at h
    · cases h
    · simp only at h
      split at h
      · cases h
      · injection h with h
        injection h with h1 h2
        subst h2
        exact ⟨rfl, rfl⟩
  · intro o m1 h ho
    split at h
    · injection h with h; subst h; cases ho
    · simp only at h
      split at h
      · injection h with h; subst h
        simp only [Outcome.machine?, Option.some.injEq] at ho
        subst ho; rfl
      · cases h

theorem dispatch_program (m : Machine) :
    (∀ m2, dispatch m = .ok m2 → m2.program = m.program) ∧
    (∀ o m1, dispatch m = .error o → o.machine? = some m1 → m1.program = m.program) := by
  have hr := readOperand_program m
  unfold dispatch
  constructor
  · intro m2 h
    split at h
    · cases h
    · split_ifs at h
      · split at h
        · cases h
        · rename_i hro
          injection h with h; subst h
          exact (hr.1 _ _ hro).1
      · split at h
        · cases h
        · cases h
        · injection h with h; subst h; rfl
      · split at h
        · cases h
        · cases h
        · split at h
          · cases h
          · cases h
          · injection h with h; subst h; rfl
      · split at h
        · cases h
        · rename_i hro
          have h3 := (hr.1 _ _ hro).1
          split_ifs at h
          split at h
          · cases h
          · cases h
          · split_ifs at h <;> (injection h with h; subst h; exact h3)
      · split at h
        · cases h
        · rename_i hro
          have h3 := (hr.1 _ _ hro).1
          split_ifs at h
          injection h with h; subst h
          exact h3
      · injection h with h; subst h; rfl
      · split at h
        · cases h
        · injection h with h; subst h; rfl
  · intro o m1 h ho
    split at h
    · injection h with h; subst h; cases ho
    · split_ifs at h
      · split at h
        · rename_i hro
          injection h with h; subst h
          exact hr.2 _ _ hro ho
        · cases h
      · split at h
        · injection h with h; subst h
          simp only [Outcome.machine?, Option.some.injEq] at ho
          subst ho; rfl
        · injection h with h; subst h; cases ho
        · cases h
      · split at h
        · injection h with h; subst h
          simp only [Outcome.machine?, Option.some.injEq] at ho
          subst ho; rfl
        · injection h with h; subst h; cases ho
        · split at h
          · injection h with h; subst h
            simp only [Outcome.machine?, Option.some.injEq] at ho
            subst ho; rfl
          · injection h with h; subst h; cases ho
          · cases h
      · split at h
        · rename_i hro
          injection h with h; subst h
          exact hr.2 _ _ hro ho
        · rename_i hro
          have h3 := (hr.1 _ _ hro).1
          split_ifs at h
          · injection h with h; subst h
            simp only [Outcome.machine?, Option.some.injEq] at ho
            subst ho; exact h3
          · split at h
            · injection h with h; subst h
              simp only [Outcome.machine?, Option.some.injEq] at ho
              subst ho; exact h3
            · injection h with h; subst h; cases ho
            · split_ifs at h
      · split at h
        · rename_i hro
          injection h with h; subst h
          exact hr.2 _ _ hro ho
        · rename_i hro
          have h3 := (hr.1 _ _ hro).1
          split_ifs at h
          injection h with h; subst h
          simp only [Outcome.machine?, Option.some.injEq] at ho
          subst ho; exact h3
      · split at h
        · injection h with h; subst h; cases ho
        · cases h
      · injection h with h; subst h
        simp only [Outcome.machine?, Option.some.injEq] at ho
        subst ho; rfl

/-- Whatever a pass does, the line store it leaves differs from the one it
found at most in the line it has tokenized, which is left as `strtok` wrote
it. -/
theorem step_program (m m1 : Machine) (line : List Char)
    (h : m.program[m.lineNum]? = some line) (h1 : (step m).machine? = some m1) :
    m1.program = m.program.set m.lineNum (tokenize line).2 := by
  unfold step at h1
  rw [h] at h1
  simp only at h1
  split at h1
  · simp only [Outcome.machine?, Option.some.injEq] at h1
    subst h1; rfl
  · split at h1
    · cases h1
    · split_ifs at h1
      · simp only [Outcome.machine?, Option.some.injEq] at h1
        subst h1; rfl
      · unfold finish at h1
        split at h1
        · rename_i hd
          exact (dispatch_program _).2 _ _ hd h1
        · rename_i hd
          have h3 := (dispatch_program _).1 _ hd
          simp only [Outcome.machine?, Option.some.injEq] at h1
          subst h1
          exact h3

theorem copyTokens_one (c : Cmd) (t : List Char) (h : t.length < CMD_WIDTH) :
    copyTokens c 0 [t] = some ({ c with row0 := some t }, 1) := by
  simp only [copyTokens, strcpyCmd_zero c t h]

theorem copyTokens_two (c : Cmd) (t o : List Char) (h : t.length < CMD_WIDTH)
    (ho : o.length < CMD_WIDTH) :
    copyTokens c 0 [t, o] = some (⟨some t, some o⟩, 2) := by
  simp only [copyTokens, strcpyCmd_zero c t h, Nat.zero_add, strcpyCmd_one _ o ho]

/-- A pass over a line of one or two tokens that fit their rows of `cmd`. -/
theorem step_tokens (m : Machine) (line t : List Char) (ts : List (List Char))
    (h : m.program[m.lineNum]? = some line) (ht : (tokenize line).1 = t :: ts)
    (hn : ts.length ≤ 1) (hl : t.length < CMD_WIDTH) (hls : ∀ o ∈ ts, o.length < CMD_WIDTH) :
    step m = finish { m with
      program := m.program.set m.lineNum (tokenize line).2,
      cmd := ⟨some t, match ts with | [] => m.cmd.row1 | o :: _ => some o⟩ } := by
  rcases ts with _ | ⟨o, _ | ⟨o2, ts⟩⟩
  · simp only [step, h, ht, copyTokens_one _ t hl]
    simp
  · have ho := hls o (List.mem_cons_self _ _)
    simp only [step, h, ht, copyTokens_two _ t o hl ho]
    simp
  · simp at hn

/-- A string of ten characters or more is none of the seven mnemonics. -/
theorem long_not_mnemonic (x : List Char) (h : CMD_WIDTH ≤ x.length) : x ∉ mnemonics := by
  have h10 : 10 ≤ x.length := h
  intro hx
  simp only [mnemonics, List.mem_cons, List.mem_singleton, List.not_mem_nil, or_false] at hx
  rcases hx with rfl | rfl | rfl | rfl | rfl | rfl | rfl <;> revert h10 <;> decide

/-- The copy of one token of at most nineteen characters: the string at
`cmd[0]` is the token. -/
theorem copyTokens_one_string0 (c : Cmd) (t : List Char)
    (h : t.length < CMD_ROWS * CMD_WIDTH) :
    ∃ cmd, copyTokens c 0 [t] = some (cmd, 1) ∧ cmd.string0 = some t := by
  by_cases hs : t.length < CMD_WIDTH
  · exact ⟨_, copyTokens_one c t hs, string0_short _ _ rfl hs⟩
  · have hge : CMD_WIDTH ≤ t.length := not_lt.1 hs
    refine ⟨⟨some (t.take CMD_WIDTH), some (t.drop CMD_WIDTH)⟩, ?_, ?_⟩
    · simp only [copyTokens, strcpyCmd_zero_long c t hge h]
    · have hl : ¬ (t.take CMD_WIDTH).length < CMD_WIDTH := by
        rw [List.length_take]
        have : 10 ≤ t.length := hge
        show ¬ (min 10 t.length < 10)
        omega
      simp only [Cmd.string0, hl, if_false, List.take_append_drop]

/-- The copy of two tokens, the first of at most nineteen characters and the
second fitting `cmd[1]`: the string at `cmd[0]` is the first token when that
fits row 0, and otherwise its first ten characters followed by the second
token. -/
theorem copyTokens_two_string0 (c : Cmd) (t o : List Char)
    (h : t.length < CMD_ROWS * CMD_WIDTH) (ho : o.length < CMD_WIDTH) :
    ∃ cmd, copyTokens c 0 [t, o] = some (cmd, 2) ∧ cmd.row1 = some o ∧
      cmd.string0 = some (if t.length < CMD_WIDTH then t else t.take CMD_WIDTH ++ o) := by
  by_cases hs : t.length < CMD_WIDTH
  · refine ⟨_, copyTokens_two c t o hs ho, rfl, ?_⟩
    rw [if_pos hs]
    exact string0_short _ _ rfl hs
  · have hge : CMD_WIDTH ≤ t.length := not_lt.1 hs
    refine ⟨⟨some (t.take CMD_WIDTH), some o⟩, ?_, rfl, ?_⟩
    · simp only [copyTokens, strcpyCmd_zero_long c t hge h, Nat.zero_add,
        strcpyCmd_one _ o ho]
    · have hl : ¬ (t.take CMD_WIDTH).length < CMD_WIDTH := by
        rw [List.length_take]
        have : 10 ≤ t.length := hge
        show ¬ (min 10 t.length < 10)
        omega
      rw [if_neg hs]
      simp only [Cmd.string0, hl, if_false]

theorem dispatch_unknown (m : Machine) (c0 : List Char) (h0 : m.cmd.string0 = some c0)
    (hc : c0 ∉ mnemonics) :
    dispatch m = .error (.returned 1 { m with out := m.out ++ badCommandMessage c0 }) := by
  simp only [mnemonics, List.mem_cons, List.mem_singleton, List.not_mem_nil, or_false,
    not_or] at hc
  obtain ⟨h1, h2, h3, h4, h5, h6, h7⟩ := hc
  simp only [dispatch, h0, h1, h2, h3, h4, h5, h6, h7, if_false]

theorem readOperand_not_one (m : Machine) (m1 : Machine) :
    readOperand m ≠ .error (.returned 1 m1) := by
  unfold readOperand
  intro h
  split at h
  · cases h
  · simp only at h
    split at h <;> cases h

theorem dispatch_returned_one (m m1 : Machine) (h : dispatch m = .error (.returned 1 m1)) :
    ∃ c0, m.cmd.string0 = some c0 ∧ c0 ∉ mnemonics := by
  unfold dispatch at h
  split at h
  · cases h
  · rename_i c0 hc0
    refine ⟨c0, hc0, ?_⟩
    simp only [mnemonics, List.mem_cons, List.mem_singleton, List.not_mem_nil, or_false,
      not_or]
    split_ifs at h with h1 h2 h3 h4 h5 h6 h7
    · split at h
      · rename_i hro
        injection h with h; subst h
        exact absurd hro (readOperand_not_one _ _)
      · cases h
    · split at h <;> cases h
    · split at h
      · cases h
      · cases h
      · split at h <;> cases h
    · split at h
      · rename_i hro
        injection h with h; subst h
        exact absurd hro (readOperand_not_one _ _)
      · split_ifs at h
        · cases h
        · split at h
          · cases h
          · cases h
          · split_ifs at h
    · split at h
      · rename_i hro
        injection h with h; subst h
        exact absurd hro (readOperand_not_one _ _)
      · split_ifs at h
        cases h
    · split at h <;> cases h
    · exact ⟨h1, h2, h3, h4, h5, h6, h7⟩

theorem strcpyCmd_row0_zero (c c1 : Cmd) (t : List Char) (hl : t.length < CMD_WIDTH)
    (h : strcpyCmd c 0 t = some c1) : c1.row0 = some t := by
  rw [strcpyCmd_zero c t hl] at h
  injection h with h; subst h; rfl

theorem strcpyCmd_row0_succ (c c1 : Cmd) (i : Nat) (t : List Char)
    (h : strcpyCmd c (i + 1) t = some c1) : c1.row0 = c.row0 := by
  simp only [strcpyCmd, Nat.succ_ne_zero, if_false] at h
  split_ifs at h
  injection h with h; subst h; rfl

theorem copyTokens_row0 (c cmd : Cmd) (t : List Char) (ts : List (List Char)) (i : Nat)
    (hl : t.length < CMD_WIDTH)
    (h : copyTokens c 0 (t :: ts) = some (cmd, i)) : cmd.row0 = some t := by
  simp only [copyTokens] at h
  cases h1 : strcpyCmd c 0 t with
  | none => rw [h1] at h; cases h
  | some c1 =>
    rw [h1] at h
    simp only at h
    have hc1 := strcpyCmd_row0_zero _ _ _ hl h1
    rcases ts with _ | ⟨o, ts⟩
    · simp only [copyTokens] at h
      injection h with h; injection h with h2 h3
      subst h2; exact hc1
    · simp only [copyTokens] at h
      cases h2 : strcpyCmd c1 (0 + 1) o with
      | none => rw [h2] at h; cases h
      | some c2 =>
        rw [h2] at h
        simp only at h
        have hc2 : c2.row0 = some t := by
          rw [strcpyCmd_row0_succ _ _ _ _ h2]; exact hc1
        rcases ts with _ | ⟨o2, ts⟩
        · simp only [copyTokens] at h
          injection h with h; injection h with h3 h4
          subst h3; exact hc2
        · simp only [copyTokens] at h
          have h3 : strcpyCmd c2 (0 + 1 + 1) o2 = none :=
            strcpyCmd_beyond c2 _ o2 (by decide)
          rw [h3] at h
          cases h

/-- A pass returns 1 only when the first token of the line is none of the
seven mnemonics. -/
theorem step_returned_one (m m1 : Machine) (line : List Char)
    (h : m.program[m.lineNum]? = some line) (h1 : step m = .returned 1 m1) :
    ∃ t ts, (tokenize line).1 = t :: ts ∧ t ∉ mnemonics := by
  unfold step at h1
  rw [h] at h1
  simp only at h1
  split at h1
  · cases h1
  · rename_i t ts ht
    refine ⟨t, ts, ht, ?_⟩
    by_cases hl : t.length < CMD_WIDTH
    · split at h1
      · cases h1
      · rename_i cmd i hcp
        have hrow := copyTokens_row0 _ _ _ _ _ hl hcp
        split_ifs at h1
        · cases h1
        unfold finish at h1
        split at h1
        · rename_i hd
          subst h1
          obtain ⟨c0, hc0, hnot⟩ := dispatch_returned_one _ _ hd
          simp only at hc0
          rw [string0_short _ _ hrow hl] at hc0
          injection hc0 with hc0
          subst hc0
          exact hnot
        · cases h1
    · exact long_not_mnemonic t (not_lt.1 hl)

/-! ## Lemmas on lines with runs of spaces -/

theorem takeWhile_spaces (n : Nat) (c : Char) (r : List Char) (hc : c ≠ ' ') :
    (spaces n ++ c :: r).takeWhile (fun x => x == ' ') = spaces n := by
  induction n with
  | zero =>
    have hb : (c == ' ') = false := by simp [hc]
    simp [spaces, List.takeWhile, hb]
  | succ n ih =>
    simp only [spaces, List.replicate_succ, List.cons_append] at ih ⊢
    simp [List.takeWhile, ih]

theorem dropWhile_spaces (n : Nat) (c : Char) (r : List Char) (hc : c ≠ ' ') :
    (spaces n ++ c :: r).dropWhile (fun x => x == ' ') = c :: r := by
  induction n with
  | zero =>
    have hb : (c == ' ') = false := by simp [hc]
    simp [spaces, List.dropWhile, hb]
  | succ n ih =>
    simp only [spaces, List.replicate_succ, List.cons_append] at ih ⊢
    simp [List.dropWhile, ih]

theorem strtok_spaces (n : Nat) : strtok ' ' (spaces n) = ⟨none, spaces n, []⟩ := by
  have h1 : (spaces n).dropWhile (fun x => x == ' ') = [] := by
    apply dropWhile_all
    intro c hc
    simp only [spaces, List.mem_replicate] at hc
    simp [hc.2]
  have h2 : (spaces n).takeWhile (fun x => x == ' ') = spaces n := by
    apply takeWhile_all
    intro c hc
    simp only [spaces, List.mem_replicate] at hc
    simp [hc.2]
  simp only [strtok, h1, h2]

/-- The call of `strtok` on spaces, a token, and a space. -/
theorem strtok_lead_space (n : Nat) (w r : List Char) (h : isToken w = true) :
    strtok ' ' (spaces n ++ (w ++ ' ' :: r)) = ⟨some w, spaces n ++ (w ++ ['\x00']), r⟩ := by
  obtain ⟨c, cs, rfl⟩ := List.exists_cons_of_ne_nil (isToken_ne_nil h)
  have hm := isToken_mem h
  have hc := hm c (List.mem_cons_self _ _)
  simp only [Bool.and_eq_true, bne_iff_ne, ne_eq] at hc
  have h1 := dropWhile_spaces n c (cs ++ ' ' :: r) hc.1
  have h2 := takeWhile_spaces n c (cs ++ ' ' :: r) hc.1
  have h3 := takeWhile_append_stop (c :: cs) ' ' r hm (by decide)
  have h4 := dropWhile_append_stop (c :: cs) ' ' r hm (by decide)
  simp only [List.cons_append] at h3 h4 ⊢
  simp only [strtok, h1, h2, hc.2, if_false, h3, h4, if_true, List.append_assoc,
    List.cons_append]

/-- The call of `strtok` on spaces and a token that ends the string. -/
theorem strtok_lead_last (n : Nat) (w : List Char) (h : isToken w = true) :
    strtok ' ' (spaces n ++ w) = ⟨some w, spaces n ++ w, []⟩ := by
  obtain ⟨c, cs, rfl⟩ := List.exists_cons_of_ne_nil (isToken_ne_nil h)
  have hm := isToken_mem h
  have hc := hm c (List.mem_cons_self _ _)
  simp only [Bool.and_eq_true, bne_iff_ne, ne_eq] at hc
  have h1 := dropWhile_spaces n c cs hc.1
  have h2 := takeWhile_spaces n c cs hc.1
  have h3 := takeWhile_all (c :: cs) hm
  have h4 := dropWhile_all (c :: cs) hm
  simp only [strtok, h1, h2, hc.2, if_false, h3, h4]

theorem strtokAll_spaced (k a b c : Nat) (w1 w2 : List Char) (h1 : isToken w1 = true)
    (h2 : isToken w2 = true) :
    (strtokAll ' ' (k + 3) (spaces a ++ (w1 ++ ' ' :: (spaces b ++ (w2 ++ spaces c))))).1
      = [w1, w2] := by
  simp only [strtokAll, strtok_lead_space a w1 _ h1]
  cases c with
  | zero =>
    have e0 : spaces b ++ (w2 ++ spaces 0) = spaces b ++ w2 := by simp [spaces]
    simp only [e0, strtok_lead_last b w2 h2, strtok_nil]
  | succ c =>
    have e0 : spaces b ++ (w2 ++ spaces (c + 1)) = spaces b ++ (w2 ++ ' ' :: spaces c) := by
      simp [spaces, List.replicate_succ]
    simp only [e0, strtok_lead_space b w2 (spaces c) h2, strtok_spaces c]

/-- The tokens of a line of two words with any number of spaces before, between
(at least one) and after them. -/
theorem tokenize_spaced (a b c : Nat) (w1 w2 : List Char) (h1 : isToken w1 = true)
    (h2 : isToken w2 = true) :
    (tokenize (spaces a ++ (w1 ++ ' ' :: (spaces b ++ (w2 ++ spaces c))))).1 = [w1, w2] := by
  obtain ⟨n, hn⟩ : ∃ n, (spaces a ++ (w1 ++ ' ' :: (spaces b ++ (w2 ++ spaces c)))).length + 1
      = n + 3 := by
    have e1 := List.length_pos.2 (isToken_ne_nil h1)
    have e2 := List.length_pos.2 (isToken_ne_nil h2)
    refine ⟨a + w1.length + b + w2.length + c - 1, ?_⟩
    simp only [List.length_append, List.length_cons, spaces, List.length_replicate]
    omega
  rw [tokenize, hn]
  exact strtokAll_spaced n a b c w1 w2 h1 h2

/-! ## Lemmas on straight-line programs -/

/-- A line of two tokens whose second does not fit `cmd[1]`. -/
theorem step_operand_overflow (m : Machine) (w1 w2 : List Char)
    (h1 : isToken w1 = true) (h2 : isToken w2 = true) (hl : CMD_WIDTH ≤ w2.length)
    (h : m.program[m.lineNum]? = some (w1 ++ ' ' :: w2)) :
    step m = .undefined := by
  have hc : copyTokens m.cmd 0 [w1, w2] = none := by
    simp only [copyTokens]
    cases hs : strcpyCmd m.cmd 0 w1 with
    | none => rfl
    | some c1 =>
      simp only
      have : strcpyCmd c1 (0 + 1) w2 = none := strcpyCmd_one_none c1 w2 hl
      rw [this]
  simp only [step, h, tokenize_two w1 w2 h1 h2, hc]

theorem definedEffect_effect (i : Instruction) (s t : List Int)
    (h : definedEffect i s = some t) : effect i s = some t := by
  cases i <;> simp only [definedEffect, effect] at h ⊢
  · split_ifs at h; exact h
  · rcases s with _ | ⟨x, _ | ⟨y, r⟩⟩ <;> simp_all [definedEffect, effect]
  all_goals first
    | exact h
    | (rcases s with _ | ⟨x, r⟩ <;> simp_all [definedEffect, effect])

theorem definedEffects_effects (is : List Instruction) : ∀ (s t : List Int),
    definedEffects is s = some t → effects is s = some t := by
  induction is with
  | nil => intro s t h; exact h
  | cons i is ih =>
    intro s t h
    simp only [definedEffects] at h
    cases hd : definedEffect i s with
    | none => rw [hd] at h; cases h
    | some s1 =>
      rw [hd] at h
      simp only [effects, definedEffect_effect i s s1 hd]
      exact ih s1 t h

/-- One pass over the line of an instruction inside defined behaviour. -/
theorem step_defined (m : Machine) (i : Instruction) (t : List Int)
    (hd : definedEffect i m.stack = some t) (he : m.erange = false)
    (h : m.program[m.lineNum]? = some (lineOf i)) :
    ∃ m1, step m = .running m1 ∧ m1.stack = t ∧ m1.lineNum = m.lineNum + 1 ∧
      m1.erange = false ∧
      m1.program = m.program.set m.lineNum (tokenize (lineOf i)).2 := by
  have hprog : ∀ m1, step m = .running m1 →
      m1.program = m.program.set m.lineNum (tokenize (lineOf i)).2 :=
    fun m1 h1 => step_program m m1 _ h (by rw [h1]; rfl)
  cases i with
  | push n =>
    simp only [definedEffect] at hd
    split_ifs at hd with hfit
    injection hd with hd
    have hrange := decimal_short n hfit
    have hst := step_push m (decimal n) n (isToken_decimal n) hfit
      (strtol_decimal n (by simp only [LONG_MIN]; omega) (by simp only [LONG_MAX]; omega)) he h
    rw [toInt32_small n (by omega) (by omega)] at hst
    exact ⟨_, hst, hd, rfl, he, hprog _ hst⟩
  | pop =>
    rcases hs : m.stack with _ | ⟨x, _ | ⟨y, r⟩⟩ <;> rw [hs] at hd <;>
      simp only [definedEffect] at hd
    · cases hd
    · injection hd with hd
      have hst : step m = .running { m with
          cmd := { m.cmd with row0 := some "pop".toList },
          stack := [],
          lineNum := m.lineNum + 1 } := by
        have h0 : m.program[m.lineNum]? = some "pop".toList := h
        rw [step_one m _ (by decide) (by decide) h0, finish, dispatch_pop _ rfl]
        simp only [hs, pop]
      exact ⟨_, hst, hd, rfl, he, hprog _ hst⟩
    · cases hd
  | print =>
    simp only [definedEffect] at hd
    injection hd with hd
    have hst : step m = .running { m with
        cmd := { m.cmd with row0 := some "print".toList },
        out := m.out ++ print_stack m.stack,
        lineNum := m.lineNum + 1 } := by
      have h0 : m.program[m.lineNum]? = some "print".toList := h
      rw [step_one m _ (by decide) (by decide) h0, finish, dispatch_print _ rfl]
    exact ⟨_, hst, hd, rfl, he, hprog _ hst⟩
  | dup =>
    rcases hs : m.stack with _ | ⟨x, r⟩ <;> rw [hs] at hd <;> simp only [definedEffect] at hd
    · cases hd
    · injection hd with hd
      have hst : step m = .running { m with
          cmd := { m.cmd with row0 := some "dup".toList },
          stack := x :: x :: r,
          lineNum := m.lineNum + 1 } := by
        have h0 : m.program[m.lineNum]? = some "dup".toList := h
        rw [step_one m _ (by decide) (by decide) h0, finish, dispatch_dup _ rfl]
        simp only [hs, push]
      exact ⟨_, hst, hd, rfl, he, hprog _ hst⟩
  | add => simp only [definedEffect] at hd; cases hd
  | ifeq L => simp only [definedEffect] at hd; cases hd
  | jump L => simp only [definedEffect] at hd; cases hd
  | invalid => simp only [definedEffect] at hd; cases hd

/-- The passes over a block of lines of instructions inside defined behaviour:
one pass for each line, in order. -/
theorem run_defined (is : List Instruction) :
    ∀ (m : Machine) (pre post : List (List Char)) (t : List Int),
      m.program = pre ++ (is.map lineOf ++ post) → m.lineNum = pre.length →
      m.erange = false → definedEffects is m.stack = some t →
      ∃ m1 pre1, run is.length m = .running m1 ∧ m1.stack = t ∧
        m1.lineNum = pre1.length ∧ pre1.length = pre.length + is.length ∧
        m1.erange = false ∧ m1.program = pre1 ++ post := by
  induction is with
  | nil =>
    intro m pre post t hp hl he hd
    simp only [definedEffects] at hd
    injection hd with hd
    exact ⟨m, pre, rfl, hd, hl, rfl, he, by simpa using hp⟩
  | cons i is ih =>
    intro m pre post t hp hl he hd
    simp only [definedEffects] at hd
    cases hd1 : definedEffect i m.stack with
    | none => rw [hd1] at hd; cases hd
    | some s1 =>
      rw [hd1] at hd
      simp only at hd
      have hget : m.program[m.lineNum]? = some (lineOf i) := by
        rw [hp, hl, List.getElem?_append_right (le_refl _)]
        simp
      obtain ⟨m1, hst, hs1, hl1, he1, hp1⟩ := step_defined m i s1 hd1 he hget
      obtain ⟨m2, pre2, h1, h2, h3, h4, h5, h6⟩ := ih m1
        (pre ++ [(tokenize (lineOf i)).2]) post t
        (by
          rw [hp1, hp, hl, List.set_append_right _ _ (le_refl _)]
          simp)
        (by rw [hl1, hl]; simp) he1 (by rw [hs1]; exact hd)
      refine ⟨m2, pre2, ?_, h2, h3, ?_, h5, h6⟩
      · simp only [List.length_cons, run, hst]
        exact h1
      · rw [h4]; simp; omega


theorem definedEffects_append (a : List Instruction) : ∀ (b : List Instruction)
    (s t : List Int), definedEffects (a ++ b) s = some t →
    ∃ u, definedEffects a s = some u ∧ definedEffects b u = some t := by
  induction a with
  | nil => intro b s t h; exact ⟨s, rfl, h⟩
  | cons i a ih =>
    intro b s t h
    simp only [List.cons_append, definedEffects] at h ⊢
    cases hd : definedEffect i s with
    | none => rw [hd] at h; cases h
    | some s1 =>
      rw [hd] at h
      exact ih b s1 t h

/-! ## The bound of `parse` -/

theorem readChars_length (k : Nat) : ∀ s : List Char, s ≠ [] →
    (readChars (k + 1) s).2.length < s.length := by
  induction k with
  | zero =>
    intro s hs
    obtain ⟨c, cs, rfl⟩ := List.exists_cons_of_ne_nil hs
    simp only [readChars]
    split_ifs <;> simp
  | succ k ih =>
    intro s hs
    obtain ⟨c, cs, rfl⟩ := List.exists_cons_of_ne_nil hs
    rw [readChars]
    split_ifs
    · simp
    · simp only [List.length_cons]
      rcases cs with _ | ⟨d, ds⟩
      · simp [readChars]
      · have := ih (d :: ds) (by simp)
        simp only [List.length_cons] at this ⊢
        omega

/-- More calls of `fgets` than the text has bytes change nothing: the bound of
`parse` is never what ends its loop. -/
theorem parseLoop_fuel (n : Nat) : ∀ (input : List Char) (lineNum : Nat)
    (program : List (List Char)) (k : Nat), input.length < n →
    parseLoop (n + k) input lineNum program = parseLoop n input lineNum program := by
  induction n with
  | zero => intro input lineNum program k h; omega
  | succ n ih =>
    intro input lineNum program k h
    rw [show n + 1 + k = (n + k) + 1 by omega]
    simp only [parseLoop]
    rcases input with _ | ⟨c, cs⟩
    · simp [fgets]
    · have hl := readChars_length 13 (c :: cs) (by simp)
      simp only [fgets, MAX_LINESIZE]
      cases (strtok '\n' (readChars (15 - 1) (c :: cs)).1).token with
      | none => rfl
      | some t =>
        simp only
        split_ifs
        · exact ih _ _ _ k (by
            have : (readChars (15 - 1) (c :: cs)).2.length < (c :: cs).length := hl
            omega)
        · rfl

/-! ## Lemmas on the tokens of a line -/

/-- A token that `strtok` delivers is not empty, and it and the bytes still to
scan are bytes of the string. -/
theorem strtok_token_length (d : Char) (s t : List Char) (h : (strtok d s).token = some t) :
    t ≠ [] ∧ t.length + (strtok d s).save.length ≤ s.length := by
  have hsub := (List.dropWhile_sublist (l := s) (fun c => c == d)).length_le
  have hhead := List.head?_dropWhile_not (fun c => c == d) s
  unfold strtok at h ⊢
  simp only at h ⊢
  cases h1 : s.dropWhile (fun c => c == d) with
  | nil => rw [h1] at h; simp at h
  | cons c cs =>
    rw [h1] at h hsub hhead
    simp only [List.length_cons] at hsub
    simp only [List.head?_cons, Option.elim] at hhead
    by_cases hc : c = '\x00'
    · simp [hc] at h
    · simp only [hc, if_false] at h ⊢
      have hp : (fun x => x != d && x != '\x00') c = true := by
        simp only [Bool.and_eq_true, bne_iff_ne, ne_eq]
        refine ⟨?_, hc⟩
        intro hcd
        rw [hcd] at hhead
        simp at hhead
      have htd := List.takeWhile_append_dropWhile (fun x => x != d && x != '\x00') (c :: cs)
      have hlen := congrArg List.length htd
      simp only [List.length_append, List.length_cons] at hlen
      have htk : (c :: cs).takeWhile (fun x => x != d && x != '\x00') ≠ [] := by
        have := List.takeWhile_cons_of_pos (p := fun x => x != d && x != '\x00') (l := cs) hp
        rw [this]
        simp
      cases h2 : (c :: cs).dropWhile (fun x => x != d && x != '\x00') with
      | nil =>
        rw [h2] at h hlen
        simp only [Option.some.injEq] at h
        subst h
        simp only [List.length_nil] at hlen ⊢
        exact ⟨htk, by omega⟩
      | cons e es =>
        rw [h2] at h hlen
        by_cases he : e = d
        · simp only [he, if_true, Option.some.injEq] at h ⊢
          subst h
          simp only [List.length_cons] at hlen
          exact ⟨htk, by omega⟩
        · simp only [he, if_false, Option.some.injEq] at h ⊢
          subst h
          simp only [List.length_cons] at hlen ⊢
          exact ⟨htk, by omega⟩

/-- When the call after a token delivers a token too, the first token was
ended by a delimiter, which takes a byte of the string. -/
theorem strtok_then_token (s t t2 : List Char) (h : (strtok ' ' s).token = some t)
    (h2 : (strtok ' ' (strtok ' ' s).save).token = some t2) :
    t.length + 1 + (strtok ' ' s).save.length ≤ s.length := by
  have hsub := (List.dropWhile_sublist (l := s) (fun c => c == ' ')).length_le
  have hhead := List.head?_dropWhile_not (fun c => c == ' ') s
  unfold strtok at h h2 ⊢
  simp only at h h2 ⊢
  cases h1 : s.dropWhile (fun c => c == ' ') with
  | nil => rw [h1] at h; simp at h
  | cons c cs =>
    rw [h1] at h h2 hsub hhead
    simp only [List.length_cons] at hsub
    by_cases hc : c = '\x00'
    · simp [hc] at h
    · simp only [hc, if_false] at h h2 ⊢
      have htd := List.takeWhile_append_dropWhile (fun x => x != ' ' && x != '\x00') (c :: cs)
      have hlen := congrArg List.length htd
      simp only [List.length_append, List.length_cons] at hlen
      have hh2 := List.head?_dropWhile_not (fun x => x != ' ' && x != '\x00') (c :: cs)
      cases h3 : (c :: cs).dropWhile (fun x => x != ' ' && x != '\x00') with
      | nil =>
        rw [h3] at h2
        simp at h2
      | cons e es =>
        rw [h3] at h h2 hlen hh2
        by_cases he : e = ' '
        · simp only [he, if_true, Option.some.injEq] at h ⊢
          subst h
          simp only [List.length_cons] at hlen
          omega
        · simp only [he, if_false] at h2
          simp only [List.head?_cons, Option.elim, Bool.and_eq_true, bne_iff_ne, ne_eq,
            not_and, Bool.not_eq_true] at hh2
          have hnul : e = '\x00' := by
            by_contra hne
            have := hh2
            simp [he, hne] at this
          subst hnul
          simp at h2

theorem strtokAll_cons (d : Char) (n : Nat) (s t : List Char) (ts : List (List Char))
    (h : (strtokAll d n s).1 = t :: ts) :
    ∃ k, n = k + 1 ∧ (strtok d s).token = some t ∧
      (strtokAll d k (strtok d s).save).1 = ts := by
  cases n with
  | zero => simp [strtokAll] at h
  | succ k =>
    simp only [strtokAll] at h
    cases ht : (strtok d s).token with
    | none => rw [ht] at h; simp at h
    | some t1 =>
      rw [ht] at h
      simp only [List.cons.injEq] at h
      exact ⟨k, rfl, by rw [h.1], h.2⟩

/-- The first token of a line is not empty and no longer than the line. -/
theorem tokenize_first (line t : List Char) (ts : List (List Char))
    (h : (tokenize line).1 = t :: ts) : t ≠ [] ∧ t.length ≤ line.length := by
  obtain ⟨k, -, h1, -⟩ := strtokAll_cons ' ' _ line t ts h
  have := strtok_token_length ' ' line t h1
  exact ⟨this.1, by omega⟩

/-- The two tokens of a line are not empty, and with the delimiter between
them they are no longer than the line. -/
theorem tokenize_pair (line t o : List Char) (ts : List (List Char))
    (h : (tokenize line).1 = t :: o :: ts) :
    t ≠ [] ∧ o ≠ [] ∧ t.length + 1 + o.length ≤ line.length := by
  obtain ⟨k, -, h1, h2⟩ := strtokAll_cons ' ' _ line t (o :: ts) h
  obtain ⟨k2, -, h3, -⟩ := strtokAll_cons ' ' _ _ o ts h2
  have a1 := strtok_token_length ' ' line t h1
  have a2 := strtok_token_length ' ' _ o h3
  have a3 := strtok_then_token line t o h1 h3
  exact ⟨a1.1, a2.1, by omega⟩

/-- A call of `strtok` keeps the number of bytes of the string. -/
theorem strtok_bytes (d : Char) (s : List Char) :
    (strtok d s).passed.length + (strtok d s).save.length = s.length := by
  have h0 := List.takeWhile_append_dropWhile (fun c => c == d) s
  have hlen0 := congrArg List.length h0
  simp only [List.length_append] at hlen0
  unfold strtok
  simp only
  cases h1 : s.dropWhile (fun c => c == d) with
  | nil =>
    rw [h1] at hlen0
    simp only [List.length_nil] at hlen0 ⊢
    omega
  | cons c cs =>
    rw [h1] at hlen0
    simp only [List.length_cons] at hlen0
    by_cases hc : c = '\x00'
    · simp only [hc, if_true, List.length_cons]
      omega
    · simp only [hc, if_false]
      have htd := List.takeWhile_append_dropWhile (fun x => x != d && x != '\x00') (c :: cs)
      have hlen := congrArg List.length htd
      simp only [List.length_append, List.length_cons] at hlen
      cases h2 : (c :: cs).dropWhile (fun x => x != d && x != '\x00') with
      | nil =>
        rw [h2] at hlen
        simp only [List.length_append, List.length_nil] at hlen ⊢
        omega
      | cons e es =>
        rw [h2] at hlen
        simp only [List.length_cons] at hlen
        by_cases he : e = d
        · simp only [he, if_true, List.length_append, List.length_cons, List.length_nil]
          omega
        · simp only [he, if_false, List.length_append, List.length_cons]
          omega

theorem strtokAll_bytes (d : Char) (n : Nat) : ∀ s : List Char,
    (strtokAll d n s).2.length = s.length := by
  induction n with
  | zero => intro s; rfl
  | succ n ih =>
    intro s
    have hb := strtok_bytes d s
    simp only [strtokAll]
    cases (strtok d s).token with
    | none =>
      simp only [List.length_append]
      exact hb
    | some t =>
      simp only [List.length_append, ih]
      exact hb

/-- The line buffer has as many bytes after the calls of `strtok` as before. -/
theorem tokenize_bytes (line : List Char) : (tokenize line).2.length = line.length :=
  strtokAll_bytes ' ' _ line

/-! ## Lemmas on `parse` -/

theorem buffers_get (fresh : Nat → List Char) (k : Nat) (h : k < MAX_FILESIZE) :
    (buffers fresh)[k]? = some (fresh k) := by
  simp [buffers, List.getElem?_map, List.getElem?_range h]

/-- One `fgets` on a line that its buffer has room for: the line and its
newline are taken. -/
theorem readChars_line (l rest : List Char) (hl : ∀ c ∈ l, c ≠ '\n') :
    ∀ k, l.length < k → readChars k (l ++ '\n' :: rest) = (l ++ ['\n'], rest) := by
  induction l with
  | nil =>
    intro k hk
    obtain ⟨j, rfl⟩ : ∃ j, k = j + 1 := ⟨k - 1, by simp at hk; omega⟩
    simp [readChars]
  | cons c cs ih =>
    intro k hk
    obtain ⟨j, rfl⟩ : ∃ j, k = j + 1 := ⟨k - 1, by simp at hk; omega⟩
    have hc : c ≠ '\n' := hl c (List.mem_cons_self _ _)
    have := ih (fun x hx => hl x (List.mem_cons_of_mem _ hx)) j (by simp at hk; omega)
    rw [List.cons_append, readChars, if_neg hc, this]
    rfl

/-- The call `strtok(line, "\n")` on a line that ends in its newline. -/
theorem strtok_newline (l : List Char) (hne : l ≠ [])
    (hm : ∀ c ∈ l, (c != '\n' && c != '\x00') = true) :
    (strtok '\n' (l ++ ['\n'])).token = some l := by
  obtain ⟨c, cs, rfl⟩ := List.exists_cons_of_ne_nil hne
  have hc := hm c (List.mem_cons_self _ _)
  simp only [Bool.and_eq_true, bne_iff_ne, ne_eq] at hc
  have hb : (c == '\n') = false := by simp [hc.1]
  have h1 : ((c :: (cs ++ ['\n'])).dropWhile fun x => x == '\n') = c :: (cs ++ ['\n']) := by
    simp [List.dropWhile, hb]
  have h3 := takeWhile_append_stop (p := fun x => x != '\n' && x != '\x00') (c :: cs) '\n' []
    hm (by decide)
  have h4 := dropWhile_append_stop (p := fun x => x != '\n' && x != '\x00') (c :: cs) '\n' []
    hm (by decide)
  simp only [List.cons_append] at h3 h4
  rw [List.cons_append]
  simp only [strtok, h1, hc.2, if_false, h3, h4, if_true]

theorem isLine_facts (l : List Char) (h : isLine l = true) :
    l ≠ [] ∧ (∀ c ∈ l, (c != '\n' && c != '\x00') = true) ∧ l.length + 1 < MAX_LINESIZE := by
  simp only [isLine, Bool.and_eq_true, List.all_eq_true, decide_eq_true_eq,
    Bool.not_eq_true', List.isEmpty_eq_false] at h
  obtain ⟨⟨h1, h2⟩, h3⟩ := h
  refine ⟨h1, ?_, h3⟩
  intro c hc
  simpa using h2 c hc

theorem fileText_cons (l : List Char) (ls : List (List Char)) :
    fileText (l :: ls) = l ++ '\n' :: fileText ls := by
  simp [fileText]

theorem fileText_length (lines : List (List Char)) : lines.length ≤ (fileText lines).length := by
  induction lines with
  | nil => simp
  | cons l ls ih =>
    rw [fileText_cons]
    simp only [List.length_append, List.length_cons]
    omega

/-- The loop of `parse` on a text of lines that it stores as they stand: line
after line is written to the buffers from `lineNum` on. -/
theorem parseLoop_lines : ∀ (lines : List (List Char)) (n : Nat)
    (pre mid post : List (List Char)),
    (∀ l ∈ lines, isLine l = true) → lines.length < n → mid.length = lines.length →
    parseLoop n (fileText lines) pre.length (pre ++ (mid ++ post))
      = some (pre ++ (lines ++ post)) := by
  intro lines
  induction lines with
  | nil =>
    intro n pre mid post _ hn hmid
    obtain ⟨k, rfl⟩ : ∃ k, n = k + 1 := ⟨n - 1, by omega⟩
    have : mid = [] := List.length_eq_zero.1 hmid
    subst this
    simp [parseLoop, fileText, fgets]
  | cons l ls ih =>
    intro n pre mid post hl hn hmid
    obtain ⟨k, rfl⟩ : ∃ k, n = k + 1 := ⟨n - 1, by omega⟩
    obtain ⟨x, mid1, rfl⟩ : ∃ x mid1, mid = x :: mid1 := by
      cases mid with
      | nil => simp at hmid
      | cons x mid1 => exact ⟨x, mid1, rfl⟩
    obtain ⟨hne, hm, hlen⟩ := isLine_facts l (hl l (List.mem_cons_self _ _))
    obtain ⟨c, cs, rfl⟩ := List.exists_cons_of_ne_nil hne
    have hnl : ∀ y ∈ c :: cs, y ≠ '\n' := by
      intro y hy
      have := hm y hy
      simp only [Bool.and_eq_true, bne_iff_ne, ne_eq] at this
      exact this.1
    have hread := readChars_line (c :: cs) (fileText ls) hnl (MAX_LINESIZE - 1)
      (by
        have : (c :: cs).length + 1 < 15 := hlen
        show (c :: cs).length < 15 - 1
        omega)
    have hfg : fgets MAX_LINESIZE (fileText ((c :: cs) :: ls))
        = some ((c :: cs) ++ ['\n'], fileText ls) := by
      rw [fileText_cons]
      rw [← hread]
      rfl
    have htok := strtok_newline (c :: cs) hne hm
    have hlt : pre.length < (pre ++ (x :: mid1 ++ post)).length := by
      simp
    have hset : (pre ++ (x :: mid1 ++ post)).set pre.length (c :: cs)
        = (pre ++ [c :: cs]) ++ (mid1 ++ post) := by
      rw [List.set_append_right _ _ (le_refl _)]
      simp
    have hrec := ih k (pre ++ [c :: cs]) mid1 post
      (fun y hy => hl y (List.mem_cons_of_mem _ hy))
      (by simp only [List.length_cons] at hn; omega)
      (by simpa using hmid)
    simp only [parseLoop, hfg, htok, hlt, if_true, hset]
    have e1 : pre.length + 1 = (pre ++ [c :: cs]).length := by simp
    rw [e1, hrec]
    simp

/-- The function `parse` on a text of lines that it stores as they stand, into
the buffers of `main`: line `k` of the text is in buffer `k`, and the other
buffers are as `malloc` delivered them. -/
theorem parse_lines (lines : List (List Char)) (fresh : Nat → List Char)
    (hl : ∀ l ∈ lines, isLine l = true) (hn : lines.length < MAX_FILESIZE) :
    parse (fileText lines) (buffers fresh)
      = some (fresh 0 :: (lines ++ (buffers fresh).drop (lines.length + 1))) := by
  have hb := buffers_length fresh
  have hsplit : buffers fresh
      = [fresh 0] ++ (((buffers fresh).drop 1).take lines.length
          ++ (buffers fresh).drop (lines.length + 1)) := by
    have h0 : buffers fresh = (buffers fresh).take 1 ++ (buffers fresh).drop 1 :=
      (List.take_append_drop 1 _).symm
    have h1 : (buffers fresh).take 1 = [fresh 0] := by
      show ((List.range (499 + 1)).map fresh).take 1 = [fresh 0]
      rw [List.range_succ_eq_map]
      simp only [List.map_cons, List.take_succ_cons, List.take_zero]
    have h2 : (buffers fresh).drop 1
        = ((buffers fresh).drop 1).take lines.length
          ++ ((buffers fresh).drop 1).drop lines.length :=
      (List.take_append_drop _ _).symm
    have h3 : ((buffers fresh).drop 1).drop lines.length
        = (buffers fresh).drop (lines.length + 1) := by
      rw [List.drop_drop, Nat.add_comm]
    rw [h3] at h2
    rw [h1] at h0
    rw [← h2]
    exact h0
  have hmid : (((buffers fresh).drop 1).take lines.length).length = lines.length := by
    have h500 : (buffers fresh).length = 500 := hb
    have : lines.length < 500 := hn
    rw [List.length_take, List.length_drop, h500]
    omega
  have := parseLoop_lines lines ((fileText lines).length + 1) [fresh 0]
    (((buffers fresh).drop 1).take lines.length) ((buffers fresh).drop (lines.length + 1))
    hl (by have := fileText_length lines; omega) hmid
  rw [parse]
  rw [← hsplit] at this
  exact this

/-! ## The line store along a run -/

theorem readChars_fst_length (k : Nat) : ∀ s : List Char, (readChars k s).1.length ≤ k := by
  induction k with
  | zero => intro s; simp [readChars]
  | succ k ih =>
    intro s
    cases s with
    | nil => simp [readChars]
    | cons c cs =>
      rw [readChars]
      split_ifs
      · simp
      · have := ih cs
        simp only [List.length_cons]
        omega

theorem parseLoop_held (n : Nat) : ∀ (input : List Char) (lineNum : Nat)
    (program p : List (List Char)),
    (∀ line ∈ program, line.length < MAX_LINESIZE) →
    parseLoop n input lineNum program = some p →
    p.length = program.length ∧ ∀ line ∈ p, line.length < MAX_LINESIZE := by
  induction n with
  | zero =>
    intro input lineNum program p hh h
    simp only [parseLoop, Option.some.injEq] at h
    subst h
    exact ⟨rfl, hh⟩
  | succ n ih =>
    intro input lineNum program p hh h
    simp only [parseLoop] at h
    cases hf : fgets MAX_LINESIZE input with
    | none =>
      rw [hf] at h
      simp only [Option.some.injEq] at h
      subst h
      exact ⟨rfl, hh⟩
    | some lr =>
      obtain ⟨line, rest⟩ := lr
      rw [hf] at h
      simp only at h
      cases ht : (strtok '\n' line).token with
      | none => rw [ht] at h; cases h
      | some t =>
        rw [ht] at h
        simp only at h
        split_ifs at h with hlt
        have hline : line.length ≤ MAX_LINESIZE - 1 := by
          cases input with
          | nil => simp [fgets] at hf
          | cons c cs =>
            simp only [fgets, Option.some.injEq] at hf
            have := readChars_fst_length (MAX_LINESIZE - 1) (c :: cs)
            rw [hf] at this
            exact this
        have htl := (strtok_token_length '\n' line t ht).2
        have hset : ∀ x ∈ program.set lineNum t, x.length < MAX_LINESIZE := by
          intro x hx
          rcases List.mem_or_eq_of_mem_set hx with h1 | h1
          · exact hh x h1
          · subst h1
            have : line.length ≤ 15 - 1 := hline
            show x.length < 15
            omega
        obtain ⟨h1, h2⟩ := ih rest (lineNum + 1) _ p hset h
        exact ⟨by rw [h1, List.length_set], h2⟩

/-- The store that `parse` fills is one of `MAX_FILESIZE` buffers with strings
of fewer than `MAX_LINESIZE` characters, when the fresh buffers hold such
strings. -/
theorem parse_heldStore (text : List Char) (fresh : Nat → List Char)
    (p : List (List Char)) (hf : ∀ k, (fresh k).length < MAX_LINESIZE)
    (hp : parse text (buffers fresh) = some p) : heldStore p := by
  have hb : ∀ line ∈ buffers fresh, line.length < MAX_LINESIZE := by
    intro line hl
    simp only [buffers, List.mem_map] at hl
    obtain ⟨k, -, rfl⟩ := hl
    exact hf k
  obtain ⟨h1, h2⟩ := parseLoop_held _ _ _ _ _ hb hp
  exact ⟨by rw [h1, buffers_length], h2⟩

/-- A pass leaves a store of `MAX_FILESIZE` buffers with strings of fewer than
`MAX_LINESIZE` characters as such a store. -/
theorem step_heldStore (m m1 : Machine) (h : heldStore m.program)
    (h1 : (step m).machine? = some m1) : heldStore m1.program := by
  cases hg : m.program[m.lineNum]? with
  | none =>
    simp only [step, hg, Outcome.machine?] at h1
    cases h1
  | some line =>
    have hp := step_program m m1 line hg h1
    have hmem : line ∈ m.program := List.getElem?_mem hg
    rw [hp]
    refine ⟨by rw [List.length_set]; exact h.1, ?_⟩
    intro x hx
    rcases List.mem_or_eq_of_mem_set hx with h2 | h2
    · exact h.2 x h2
    · subst h2
      rw [tokenize_bytes]
      exact h.2 line hmem

/-- Every state that the loop of `execute` reaches from such a store has such
a store. -/
theorem run_heldStore (n : Nat) : ∀ (m m1 : Machine), heldStore m.program →
    run n m = .running m1 → heldStore m1.program := by
  induction n with
  | zero =>
    intro m m1 hh h
    simp only [run] at h
    injection h with h; subst h; exact hh
  | succ n ih =>
    intro m m1 hh h
    simp only [run] at h
    split at h
    · rename_i m2 hs
      exact ih m2 m1 (step_heldStore m m2 hh (by rw [hs]; rfl)) h
    · rename_i hne
      rw [h] at hne
      exact absurd rfl (hne m1)

/-! ## Lemmas on control transfers and on files of `push` lines -/

/-- A pass over a line whose tokens are `jump` and a short operand that
`strtol` reads to its end. -/
theorem step_jump_tokens (m : Machine) (line op : List Char)
    (h : m.program[m.lineNum]? = some line) (ht : (tokenize line).1 = ["jump".toList, op])
    (hl : op.length < CMD_WIDTH) (hend : (strtol op).endp = []) (he : m.erange = false) :
    step m =
      if (strtol op).value < 1 ∨ (MAX_FILESIZE : Int) < (strtol op).value then
        .returned 4 { m with
          program := m.program.set m.lineNum (tokenize line).2,
          cmd := ⟨some "jump".toList, some op⟩,
          out := m.out ++ badJumpMessage m.lineNum (strtol op).value }
      else
        .running { m with
          program := m.program.set m.lineNum (tokenize line).2,
          cmd := ⟨some "jump".toList, some op⟩,
          lineNum := ((strtol op).value - 1).toNat + 1 } := by
  have hro := readOperand_short { m with
      program := m.program.set m.lineNum (tokenize line).2,
      cmd := ⟨some "jump".toList, some op⟩ } op rfl hl hend he
  rw [step_tokens m line _ [op] h ht (by simp) (by decide) (by simpa using hl), finish,
    dispatch_jump _ rfl, hro]
  by_cases hc : (strtol op).value < 1 ∨ (MAX_FILESIZE : Int) < (strtol op).value
  · simp only [if_pos hc]
  · simp only [if_neg hc]

/-- A pass over a line whose tokens are `ifeq` and a short operand that
`strtol` reads to its end. -/
theorem step_ifeq_tokens (m : Machine) (line op : List Char)
    (h : m.program[m.lineNum]? = some line) (ht : (tokenize line).1 = ["ifeq".toList, op])
    (hl : op.length < CMD_WIDTH) (hend : (strtol op).endp = []) (he : m.erange = false) :
    step m =
      if (strtol op).value < 1 ∨ (MAX_FILESIZE : Int) < (strtol op).value then
        .returned 4 { m with
          program := m.program.set m.lineNum (tokenize line).2,
          cmd := ⟨some "ifeq".toList, some op⟩,
          out := m.out ++ badJumpMessage m.lineNum (strtol op).value }
      else
        match m.stack with
        | [] => .exited { m with
            program := m.program.set m.lineNum (tokenize line).2,
            cmd := ⟨some "ifeq".toList, some op⟩,
            out := m.out ++ popMessage }
        | [top] => .running { m with
            program := m.program.set m.lineNum (tokenize line).2,
            cmd := ⟨some "ifeq".toList, some op⟩,
            stack := [],
            lineNum := if top = 0 then ((strtol op).value - 1).toNat + 1 else m.lineNum + 1 }
        | _ :: _ :: _ => .undefined := by
  have hro := readOperand_short { m with
      program := m.program.set m.lineNum (tokenize line).2,
      cmd := ⟨some "ifeq".toList, some op⟩ } op rfl hl hend he
  rw [step_tokens m line _ [op] h ht (by simp) (by decide) (by simpa using hl), finish,
    dispatch_ifeq _ rfl, hro]
  by_cases hc : (strtol op).value < 1 ∨ (MAX_FILESIZE : Int) < (strtol op).value
  · simp only [if_pos hc]
  · simp only [if_neg hc]
    cases hs : m.stack with
    | nil => simp only [pop]
    | cons top rest =>
      cases rest with
      | nil =>
        simp only [pop]
        by_cases ht : top = 0
        · simp only [if_pos ht]
        · simp only [if_neg ht]
      | cons y rest => simp only [pop]

/-- The operand of a line of at most fourteen characters whose first token has
four characters fits `cmd[1]`. -/
theorem operand_fits (line mn op : List Char) (hline : line.length < MAX_LINESIZE)
    (ht : (tokenize line).1 = [mn, op]) (h4 : mn.length = 4) :
    op ≠ [] ∧ op.length < CMD_WIDTH := by
  obtain ⟨-, h2, h3⟩ := tokenize_pair line mn op [] ht
  have h15 : line.length < 15 := hline
  refine ⟨h2, ?_⟩
  show op.length < 10
  omega

theorem decimal_no_newline (v : Int) : ∀ c ∈ decimal v, (c != '\n' && c != '\x00') = true := by
  have hf : v.natAbs < v.natAbs + 1 := Nat.lt_succ_self _
  have hd := natDigits_isdigit _ _ hf
  have hall : ∀ c ∈ natDigits (v.natAbs + 1) v.natAbs, (c != '\n' && c != '\x00') = true := by
    intro c hc
    obtain ⟨h0, -, -, -, h2⟩ := isdigit_facts c (hd c hc)
    have h1 : c ≠ '\n' := by
      intro hcn; subst hcn; revert h0; decide
    simp [h1, h2]
  intro c hc
  unfold decimal at hc
  split at hc
  · rcases List.mem_cons.1 hc with h | h
    · subst h; decide
    · exact hall c h
  · exact hall c hc

/-- A `push` line of at most thirteen characters is stored by `parse` as it
stands. -/
theorem isLine_pushLine (v : Int) (h : (pushLine v).length + 1 < MAX_LINESIZE) :
    isLine (pushLine v) = true := by
  simp only [isLine, Bool.and_eq_true, List.all_eq_true, decide_eq_true_eq,
    Bool.not_eq_true', List.isEmpty_eq_false]
  refine ⟨⟨by simp [pushLine], ?_⟩, h⟩
  intro c hc
  simp only [pushLine, List.mem_append, List.mem_cons] at hc
  rcases hc with h1 | h1 | h1
  · have : ∀ x ∈ "push".toList, (x != '\n' && x != '\x00') = true := by decide
    exact Bool.and_eq_true_iff.1 (this c h1)
  · subst h1; decide
  · exact Bool.and_eq_true_iff.1 (decimal_no_newline v c h1)

theorem pushLine_length (v : Int) : (pushLine v).length = (decimal v).length + 5 := by
  simp only [pushLine, List.length_append, List.length_cons]
  have : "push".toList.length = 4 := by decide
  omega

/-- The passes over a block of `push` lines followed by `print` and a line
without text. -/
theorem run_pushes_print (vs : List Int)
    (hfit : ∀ v ∈ vs, (decimal v).length < CMD_WIDTH)
    (l0 : List Char) (rest : List (List Char)) :
    ∃ m1 m2 : Machine,
      run vs.length (initial (l0 :: (vs.map pushLine ++ "print".toList :: [] :: rest)))
        = .running m1 ∧
      m1.stack = vs.reverse ∧ m1.out = [] ∧
      step m1 = .running m2 ∧ m2.stack = vs.reverse ∧
      m2.out = (if vs = [] then "The stack is empty\n".toList else rendering vs.reverse) ∧
      execute (vs.length + 2) (l0 :: (vs.map pushLine ++ "print".toList :: [] :: rest))
        = .returned 0 m2 := by
  obtain ⟨m1, pre1, h1, h2, h3, h4, h5, h6⟩ := run_pushes vs hfit
    (initial (l0 :: (vs.map pushLine ++ "print".toList :: [] :: rest))) [l0]
    ("print".toList :: [] :: rest) rfl rfl rfl
  have hs2 : m1.stack = vs.reverse := by simpa [initial] using h2
  have ho : m1.out = [] := by simpa [initial] using h5
  have hget : m1.program[m1.lineNum]? = some "print".toList := by
    rw [h6, h3, List.getElem?_append_right (le_refl _)]
    simp
  have hstep : step m1 = .running { m1 with
      cmd := { m1.cmd with row0 := some "print".toList },
      out := m1.out ++ print_stack m1.stack,
      lineNum := m1.lineNum + 1 } := by
    rw [step_one m1 _ (by decide) (by decide) hget, finish, dispatch_print _ rfl]
  have hout : m1.out ++ print_stack m1.stack
      = (if vs = [] then "The stack is empty\n".toList else rendering vs.reverse) := by
    rw [ho, hs2, List.nil_append]
    cases hr : vs.reverse with
    | nil =>
      have : vs = [] := by simpa using hr
      simp [this, print_stack]
    | cons x t =>
      have : vs ≠ [] := by
        intro hv; rw [hv] at hr; simp at hr
      simp only [this, if_false, print_stack, rendering, printNodes_eq]
  refine ⟨m1, _, h1, hs2, ho, hstep, hs2, hout, ?_⟩
  have hlast : step { m1 with
      cmd := { m1.cmd with row0 := some "print".toList },
      out := m1.out ++ print_stack m1.stack,
      lineNum := m1.lineNum + 1 } = .returned 0 { m1 with
      cmd := { m1.cmd with row0 := some "print".toList },
      out := m1.out ++ print_stack m1.stack,
      lineNum := m1.lineNum + 1 } := by
    have hg : m1.program[m1.lineNum + 1]? = some [] := by
      rw [h6, h3, List.getElem?_append_right (by omega)]
      simp
    simp only [step, hg]
    have ht : tokenize [] = ([], []) := by decide
    simp only [ht]
    rw [set_same _ _ _ hg]
  rw [execute, show vs.length + 2 = vs.length + (1 + 1) by omega, run_add, h1]
  simp only [run, hstep, hlast]

/-- The store that `parse` builds from a file of `push` lines and `print`. -/
theorem parse_pushes_print (vs : List Int) (fresh : Nat → List Char)
    (hfit : ∀ v ∈ vs, (pushLine v).length + 1 < MAX_LINESIZE)
    (hn : vs.length + 2 < MAX_FILESIZE) (hf : fresh (vs.length + 2) = []) :
    parse (fileText (vs.map pushLine ++ ["print".toList])) (buffers fresh)
      = some (fresh 0 :: (vs.map pushLine ++ "print".toList :: []
          :: (buffers fresh).drop (vs.length + 3))) := by
  have hl : ∀ l ∈ vs.map pushLine ++ ["print".toList], isLine l = true := by
    intro l hl
    rcases List.mem_append.1 hl with h1 | h1
    · obtain ⟨v, hv, rfl⟩ := List.mem_map.1 h1
      exact isLine_pushLine v (hfit v hv)
    · simp only [List.mem_singleton] at h1
      subst h1
      decide
  have hlen : (vs.map pushLine ++ ["print".toList]).length = vs.length + 1 := by simp
  have h500 : vs.length + 2 < 500 := hn
  have hp := parse_lines (vs.map pushLine ++ ["print".toList]) fresh hl
    (by rw [hlen]; show vs.length + 1 < 500; omega)
  rw [hlen] at hp
  have hb : (buffers fresh).length = 500 := buffers_length fresh
  have hd : (buffers fresh).drop (vs.length + 1 + 1)
      = [] :: (buffers fresh).drop (vs.length + 3) := by
    have hlt : vs.length + 2 < (buffers fresh).length := by omega
    have hg := buffers_get fresh (vs.length + 2) hn
    rw [List.getElem?_eq_getElem hlt, Option.some.injEq] at hg
    rw [show vs.length + 1 + 1 = vs.length + 2 by omega, List.drop_eq_getElem_cons hlt, hg, hf]
  rw [hp, hd]
  simp

/-- A line of a store of buffers of `MAX_LINESIZE` bytes has at most fourteen
characters. -/
theorem heldStore_line (program : List (List Char)) (k : Nat) (line : List Char)
    (h : heldStore program) (hk : program[k]? = some line) : line.length < MAX_LINESIZE :=
  h.2 line (List.getElem?_mem hk)

theorem copyTokens_pair_count (c cmd : Cmd) (t o : List Char) (i : Nat)
    (h : copyTokens c 0 [t, o] = some (cmd, i)) : i = 2 := by
  simp only [copyTokens] at h
  cases h1 : strcpyCmd c 0 t with
  | none => rw [h1] at h; cases h
  | some c1 =>
    rw [h1] at h
    simp only at h
    cases h2 : strcpyCmd c1 (0 + 1) o with
    | none => rw [h2] at h; cases h
    | some c2 =>
      rw [h2] at h
      simp only [Option.some.injEq, Prod.mk.injEq] at h
      omega

/-- A pass over a line of two tokens: both are copied to `cmd`, and if the
copies stay inside `cmd` the pass dispatches. -/
theorem step_pair (m : Machine) (line t o : List Char)
    (h : m.program[m.lineNum]? = some line) (ht : (tokenize line).1 = [t, o]) :
    step m = (match copyTokens m.cmd 0 [t, o] with
      | none => .undefined
      | some (cmd, _) => finish { m with
          program := m.program.set m.lineNum (tokenize line).2, cmd := cmd }) := by
  simp only [step, h, ht]
  cases hc : copyTokens m.cmd 0 [t, o] with
  | none => rfl
  | some ci =>
    obtain ⟨cmd, i⟩ := ci
    have hi := copyTokens_pair_count _ _ _ _ _ hc
    subst hi
    simp

/-! ## Claims, first group -/

/-- C1: (the code at the failing input) the file `push 2147483647`, `print`
is not run as the claim says. A line buffer has `MAX_LINESIZE = 15` bytes and
`fgets` takes at most fourteen characters, so `parse` stores the fifteen
characters of the first line as the two lines `push 214748364` and `7`;
`execute` pushes 214748364, returns 1 at the line `7`, and `print` is never
run. For the files that `parse` stores line by line the claim holds: for every
list of values whose `push` lines have at most thirteen characters, in a file
that leaves a buffer without text behind its last line, the stack after the
pushes is `vn, ..., v1` (top first) with nothing printed, the pass over `print`
leaves that stack and prints `The stack:` and each value, top first, after a
space and before a comma, then a newline (or the empty-stack message when
`n = 0`), and `execute` returns 0. -/
theorem C1_ten_digit_push_is_cut :
    parse "push 2147483647\nprint\n".toList (buffers fun _ => [])
      = some ([] :: "push 214748364".toList :: "7".toList :: "print".toList
          :: List.replicate 496 []) ∧
    execute 3 ([] :: "push 214748364".toList :: "7".toList :: "print".toList
        :: List.replicate 496 [])
      = .returned 1
        { program := [] :: "push\x00214748364".toList :: "7".toList :: "print".toList
            :: List.replicate 496 [],
          stack := [214748364], lineNum := 2,
          cmd := ⟨some "7".toList, some "214748364".toList⟩, erange := false,
          out := "Error: 7 is not a valid command\n".toList } ∧
    (∀ (vs : List Int) (fresh : Nat → List Char),
      (∀ v ∈ vs, (pushLine v).length + 1 < MAX_LINESIZE) →
      vs.length + 2 < MAX_FILESIZE → fresh (vs.length + 2) = [] →
      ∃ program : List (List Char),
        parse (fileText (vs.map pushLine ++ ["print".toList])) (buffers fresh) = some program ∧
        ∃ m1 m2 : Machine,
          run vs.length (initial program) = .running m1 ∧
          m1.stack = vs.reverse ∧ m1.out = [] ∧
          step m1 = .running m2 ∧ m2.stack = vs.reverse ∧
          m2.out = (if vs = [] then "The stack is empty\n".toList else rendering vs.reverse) ∧
          execute (vs.length + 2) program = .returned 0 m2) := by
  refine ⟨?_, ?_, ?_⟩
  · set_option maxRecDepth 100000 in decide
  · set_option maxRecDepth 100000 in decide
  · intro vs fresh hfit hn hf
    refine ⟨_, parse_pushes_print vs fresh hfit hn hf, ?_⟩
    apply run_pushes_print vs
    intro v hv
    have h1 := hfit v hv
    rw [pushLine_length] at h1
    have h2 : (decimal v).length + 5 + 1 < 15 := h1
    show (decimal v).length < 10
    omega

/-- C1, witness: the file `push 5`, `push -3`, `push 12`, `print`. -/
theorem C1_ten_digit_push_is_cut_witness :
    ((∀ v ∈ [(5 : Int), -3, 12], (pushLine v).length + 1 < MAX_LINESIZE) ∧
      [(5 : Int), -3, 12].length + 2 < MAX_FILESIZE) ∧
    fileText ([(5 : Int), -3, 12].map pushLine ++ ["print".toList])
      = "push 5\npush -3\npush 12\nprint\n".toList ∧
    ∃ program : List (List Char),
      parse (fileText ([(5 : Int), -3, 12].map pushLine ++ ["print".toList]))
        (buffers fun _ => []) = some program ∧
      ∃ m1 m2 : Machine,
        run 3 (initial program) = .running m1 ∧
        m1.stack = [12, -3, 5] ∧ m1.out = [] ∧
        step m1 = .running m2 ∧ m2.stack = [12, -3, 5] ∧
        m2.out = "The stack: 12, -3, 5,\n".toList ∧
        execute 5 program = .returned 0 m2 :=
  ⟨by decide, by decide,
   C1_ten_digit_push_is_cut.2.2 [5, -3, 12] (fun _ => []) (by decide) (by decide) rfl⟩

/-- C2, the code at the failing input: after `push 1`, `push 2` the stack is
`2, 1`; the first `pop` of `add` finds two nodes, releases the top one and then
reads its `next` field, so the run of `push 1`, `push 2`, `add` leaves defined
behaviour instead of ending with the single element 3. -/
theorem C2_add_reads_freed_node :
    run 2 (initial [[], "push 1".toList, "push 2".toList, "add".toList, []])
      = .running { program := [[], "push\x001".toList, "push\x002".toList, "add".toList, []],
                   stack := [2, 1], lineNum := 3,
                   cmd := ⟨some "push".toList, some "2".toList⟩, erange := false,
                   out := [] } ∧
    pop [2, 1] = .freedRead ∧
    run 3 (initial [[], "push 1".toList, "push 2".toList, "add".toList, []]) = .undefined := by
  decide

/-- C3, the code at the failing input: in the program `push 5`, `push 0`,
`ifeq 5`, `push 99`, `print` the `pop` of `ifeq 5` finds the two nodes `0, 5`,
releases the top one and then reads its `next` field, so the run leaves defined
behaviour at line 3 instead of going on at line 5 with the stack `5`. On a
stack of one node the same line pops the node and goes on at line 5. -/
theorem C3_ifeq_reads_freed_node :
    run 2 (initial [[], "push 5".toList, "push 0".toList, "ifeq 5".toList, "push 99".toList,
        "print".toList, []])
      = .running { program := [[], "push\x005".toList, "push\x000".toList, "ifeq 5".toList,
                     "push 99".toList, "print".toList, []],
                   stack := [0, 5], lineNum := 3,
                   cmd := ⟨some "push".toList, some "0".toList⟩, erange := false,
                   out := [] } ∧
    execute 6 [[], "push 5".toList, "push 0".toList, "ifeq 5".toList, "push 99".toList,
        "print".toList, []] = .undefined ∧
    step { program := [[], "push 5".toList, "push 0".toList, "ifeq 5".toList,
             "push 99".toList, "print".toList, []],
           stack := [0], lineNum := 3, cmd := ⟨none, none⟩, erange := false, out := [] }
      = .running { program := [[], "push 5".toList, "push 0".toList, "ifeq\x005".toList,
                     "push 99".toList, "print".toList, []],
                   stack := [], lineNum := 5,
                   cmd := ⟨some "ifeq".toList, some "5".toList⟩, erange := false,
                   out := [] } := by
  decide

/-- C4: (the code at the failing input) in the file `jump 3`, `push 5`,
`jump 2` the line `jump 2` is visited twice. The first visit goes on at line 2
and `strtok` leaves the stored line as `jump`, NUL, `2`. On the second visit
that text is the one token `jump`; `cmd[1]` still holds the `5` of `push 5`,
and the pass goes on at line 5 instead of line 2. A `jump 500` is accepted
too, and no line 500 is executed: the next pass reads `program[500]`, outside
the store. On a visit at which both tokens are read from the line (every
first visit), for a target from 1 to 499, the pass leaves the stack as it was
and the pass after it is the one over line `L`. -/
theorem C4_jump_reentered :
    parse "jump 3\npush 5\njump 2\n".toList (buffers fun _ => [])
      = some ([] :: "jump 3".toList :: "push 5".toList :: "jump 2".toList :: List.replicate 496 []) ∧
    run 3 (initial ([] :: "jump 3".toList :: "push 5".toList :: "jump 2".toList
        :: List.replicate 496 []))
      = .running
        { program := [] :: "jump\x003".toList :: "push\x005".toList :: "jump\x002".toList
            :: List.replicate 496 [],
          stack := [5], lineNum := 3,
          cmd := ⟨some "push".toList, some "5".toList⟩, erange := false, out := [] } ∧
    (tokenize "jump\x002".toList).1 = ["jump".toList] ∧
    run 4 (initial ([] :: "jump 3".toList :: "push 5".toList :: "jump 2".toList
        :: List.replicate 496 []))
      = .running
        { program := [] :: "jump\x003".toList :: "push\x005".toList :: "jump\x002".toList
            :: List.replicate 496 [],
          stack := [5], lineNum := 5,
          cmd := ⟨some "jump".toList, some "5".toList⟩, erange := false, out := [] } ∧
    parse "jump 500\n".toList (buffers fun _ => [])
      = some ([] :: "jump 500".toList :: List.replicate 498 []) ∧
    execute 2 ([] :: "jump 500".toList :: List.replicate 498 []) = .undefined ∧
    (∀ (m : Machine) (line op : List Char) (L : Int),
      heldStore m.program → m.erange = false →
      m.program[m.lineNum]? = some line → (tokenize line).1 = ["jump".toList, op] →
      (strtol op).endp = [] → (strtol op).value = L → 1 ≤ L → L < MAX_FILESIZE →
      ∃ m1 : Machine, step m = .running m1 ∧ m1.stack = m.stack ∧
        m1.lineNum = L.toNat ∧ m1.lineNum ≠ L.toNat + 1 ∧ m1.lineNum ≠ L.toNat - 1 ∧
        (∃ next, m1.program[m1.lineNum]? = some next) ∧
        ∀ n, run (n + 1) m = run n m1) := by
  refine ⟨?_, ?_, by decide, ?_, ?_, ?_, ?_⟩
  · set_option maxRecDepth 100000 in decide
  · set_option maxRecDepth 100000 in decide
  · set_option maxRecDepth 100000 in decide
  · set_option maxRecDepth 100000 in decide
  · set_option maxRecDepth 100000 in decide
  · intro m line op L hh he h ht hend hL h1 h2
    have hlen := hh.1
    have hline := heldStore_line _ _ _ hh h
    have hfit := (operand_fits line _ op hline ht (by decide)).2
    have hst := step_jump_tokens m line op h ht hfit hend he
    rw [hL] at hst
    have h2b : L < 500 := h2
    rw [if_neg (by simp only [MAX_FILESIZE]; omega)] at hst
    refine ⟨_, hst, rfl, ?_, ?_, ?_, ?_, ?_⟩
    · simp only; omega
    · simp only; omega
    · simp only; omega
    · have hlt : (L - 1).toNat + 1 < (m.program.set m.lineNum (tokenize line).2).length := by
        rw [List.length_set, hlen]
        show (L - 1).toNat + 1 < 500
        omega
      exact ⟨_, List.getElem?_eq_getElem hlt⟩
    · intro n
      simp only [run, hst]

/-- C4, witness: the first visit of the line `jump 2` in the store of the file
`jump 3`, `push 5`, `jump 2`, with the stack `4, 9`. -/
theorem C4_jump_reentered_witness :
    (heldStore ([] :: "jump 3".toList :: "push 5".toList :: "jump 2".toList
        :: List.replicate 496 []) ∧
      (tokenize "jump 2".toList).1 = ["jump".toList, "2".toList] ∧
      (strtol "2".toList).endp = [] ∧ (strtol "2".toList).value = 2) ∧
    ∃ m1 : Machine,
      step { program := [] :: "jump 3".toList :: "push 5".toList :: "jump 2".toList
               :: List.replicate 496 [],
             stack := [4, 9], lineNum := 3, cmd := ⟨none, none⟩, erange := false, out := [] }
        = .running m1 ∧
      m1.stack = [4, 9] ∧ m1.lineNum = 2 ∧ m1.lineNum ≠ 2 + 1 ∧ m1.lineNum ≠ 2 - 1 ∧
      (∃ next, m1.program[m1.lineNum]? = some next) ∧
      ∀ n, run (n + 1)
        { program := [] :: "jump 3".toList :: "push 5".toList :: "jump 2".toList
            :: List.replicate 496 [],
          stack := [4, 9], lineNum := 3, cmd := ⟨none, none⟩, erange := false, out := [] }
        = run n m1 :=
  ⟨⟨⟨by set_option maxRecDepth 100000 in decide,
       by set_option maxRecDepth 100000 in decide⟩, by decide, by decide, by decide⟩,
   C4_jump_reentered.2.2.2.2.2.2
     { program := [] :: "jump 3".toList :: "push 5".toList :: "jump 2".toList
         :: List.replicate 496 [],
       stack := [4, 9], lineNum := 3, cmd := ⟨none, none⟩, erange := false, out := [] }
     "jump 2".toList "2".toList 2
     ⟨by set_option maxRecDepth 100000 in decide,
       by set_option maxRecDepth 100000 in decide⟩ rfl (by decide) (by decide)
     (by decide) (by decide) (by decide) (by decide)⟩

/-- C5: (the code at the failing input) in the file `jump 3`, `push 0`,
`jump 2` the second visit of the line `jump 2`, whose target 2 is valid,
returns 4: the stored line then reads `jump`, NUL, `2`, which is the one token
`jump`, and the number tested is the `0` that `push 0` left in `cmd[1]`. On a
visit at which both tokens are read from the line (every first visit of an
`ifeq` or `jump` line), with an operand that `strtol` reads to its end as `L`:
the pass returns 4 exactly when `L < 1` or `L > 500`; when it returns 4 the
stack is what it was (`ifeq` has not popped); and every `L` from 1 to 500 is
accepted whatever the number of loaded lines is. -/
theorem C5_jump_target_reentered :
    parse "jump 3\npush 0\njump 2\n".toList (buffers fun _ => [])
      = some ([] :: "jump 3".toList :: "push 0".toList :: "jump 2".toList
          :: List.replicate 496 []) ∧
    (strtol "2".toList).value = 2 ∧
    run 3 (initial ([] :: "jump 3".toList :: "push 0".toList :: "jump 2".toList
        :: List.replicate 496 []))
      = .running
        { program := [] :: "jump\x003".toList :: "push\x000".toList :: "jump\x002".toList
            :: List.replicate 496 [],
          stack := [0], lineNum := 3,
          cmd := ⟨some "push".toList, some "0".toList⟩, erange := false, out := [] } ∧
    execute 4 ([] :: "jump 3".toList :: "push 0".toList :: "jump 2".toList
        :: List.replicate 496 [])
      = .returned 4
        { program := [] :: "jump\x003".toList :: "push\x000".toList :: "jump\x002".toList
            :: List.replicate 496 [],
          stack := [0], lineNum := 3,
          cmd := ⟨some "jump".toList, some "0".toList⟩, erange := false,
          out := "Line 3: Cannot jump to line 0\n".toList } ∧
    (∀ (m : Machine) (line mn op : List Char) (L : Int),
      (mn = "ifeq".toList ∨ mn = "jump".toList) → heldStore m.program →
      m.erange = false → m.program[m.lineNum]? = some line →
      (tokenize line).1 = [mn, op] → (strtol op).endp = [] → (strtol op).value = L →
      ((∃ m1, step m = .returned 4 m1) ↔ (L < 1 ∨ (MAX_FILESIZE : Int) < L)) ∧
      (∀ m1, step m = .returned 4 m1 → m1.stack = m.stack) ∧
      (1 ≤ L ∧ L ≤ MAX_FILESIZE →
        (mn = "jump".toList →
          ∃ m1, step m = .running m1 ∧ m1.lineNum = L.toNat ∧ m1.stack = m.stack) ∧
        (mn = "ifeq".toList →
          (m.stack = [] → ∃ m1, step m = .exited m1) ∧
          (∀ top, m.stack = [top] →
            ∃ m1, step m = .running m1 ∧ m1.stack = [] ∧
              m1.lineNum = (if top = 0 then L.toNat else m.lineNum + 1))))) := by
  refine ⟨?_, by decide, ?_, ?_, ?_⟩
  · set_option maxRecDepth 100000 in decide
  · set_option maxRecDepth 100000 in decide
  · set_option maxRecDepth 100000 in decide
  · intro m line mn op L hmn hh he h ht hend hL
    have hline := heldStore_line _ _ _ hh h
    rcases hmn with rfl | rfl
    · have hl := (operand_fits line _ op hline ht (by decide)).2
      have hst := step_ifeq_tokens m line op h ht hl hend he
      rw [hL] at hst
      by_cases hc : L < 1 ∨ (MAX_FILESIZE : Int) < L
      · rw [if_pos hc] at hst
        refine ⟨⟨fun _ => hc, fun _ => ⟨_, hst⟩⟩, ?_, ?_⟩
        · intro m1 hm1
          rw [hst] at hm1
          cases hm1
          rfl
        · intro hr
          simp only [MAX_FILESIZE] at hc hr
          omega
      · rw [if_neg hc] at hst
        have hno : ∀ m1, step m ≠ .returned 4 m1 := by
          intro m1 hm1
          rw [hst] at hm1
          rcases hs : m.stack with _ | ⟨x, _ | ⟨y, t⟩⟩ <;> rw [hs] at hm1 <;> cases hm1
        refine ⟨⟨fun ⟨m1, hm1⟩ => absurd hm1 (hno m1), fun hc2 => absurd hc2 hc⟩,
          fun m1 hm1 => absurd hm1 (hno m1), ?_⟩
        intro hr
        refine ⟨fun hj => absurd hj (by decide), fun _ => ⟨?_, ?_⟩⟩
        · intro hs
          rw [hs] at hst
          exact ⟨_, hst⟩
        · intro top hs
          rw [hs] at hst
          refine ⟨_, hst, rfl, ?_⟩
          simp only
          by_cases ht : top = 0
          · simp only [if_pos ht]; omega
          · simp only [if_neg ht]
    · have hl := (operand_fits line _ op hline ht (by decide)).2
      have hst := step_jump_tokens m line op h ht hl hend he
      rw [hL] at hst
      by_cases hc : L < 1 ∨ (MAX_FILESIZE : Int) < L
      · rw [if_pos hc] at hst
        refine ⟨⟨fun _ => hc, fun _ => ⟨_, hst⟩⟩, ?_, ?_⟩
        · intro m1 hm1
          rw [hst] at hm1
          cases hm1
          rfl
        · intro hr
          simp only [MAX_FILESIZE] at hc hr
          omega
      · rw [if_neg hc] at hst
        refine ⟨⟨?_, fun hc2 => absurd hc2 hc⟩, ?_, ?_⟩
        · rintro ⟨m1, hm1⟩
          rw [hst] at hm1
          cases hm1
        · intro m1 hm1
          rw [hst] at hm1
          cases hm1
        · intro hr
          refine ⟨fun _ => ⟨_, hst, ?_, rfl⟩, fun hj => absurd hj (by decide)⟩
          simp only
          omega

/-- C5, witness: the line `ifeq 0` of the file `push 3`, `ifeq 0`, reached
with the stack `3`, returns 4 and the 3 is still on the stack. -/
theorem C5_jump_target_reentered_witness :
    (heldStore ([] :: "push\x003".toList :: "ifeq 0".toList :: List.replicate 497 []) ∧
      (tokenize "ifeq 0".toList).1 = ["ifeq".toList, "0".toList] ∧
      (strtol "0".toList).endp = [] ∧ (strtol "0".toList).value = 0) ∧
    ((∃ m1, step { program := [] :: "push\x003".toList :: "ifeq 0".toList
                     :: List.replicate 497 [],
                   stack := [3], lineNum := 2,
                   cmd := ⟨some "push".toList, some "3".toList⟩, erange := false, out := [] }
        = .returned 4 m1) ↔ ((0 : Int) < 1 ∨ (MAX_FILESIZE : Int) < 0)) ∧
    (∀ m1, step { program := [] :: "push\x003".toList :: "ifeq 0".toList
                    :: List.replicate 497 [],
                  stack := [3], lineNum := 2,
                  cmd := ⟨some "push".toList, some "3".toList⟩, erange := false, out := [] }
        = .returned 4 m1 → m1.stack = [3]) :=
  ⟨⟨⟨by set_option maxRecDepth 100000 in decide,
       by set_option maxRecDepth 100000 in decide⟩, by decide, by decide, by decide⟩,
   (C5_jump_target_reentered.2.2.2.2
      { program := [] :: "push\x003".toList :: "ifeq 0".toList :: List.replicate 497 [],
        stack := [3], lineNum := 2,
        cmd := ⟨some "push".toList, some "3".toList⟩, erange := false, out := [] }
      "ifeq 0".toList "ifeq".toList "0".toList 0
      (Or.inl rfl) ⟨by set_option maxRecDepth 100000 in decide,
       by set_option maxRecDepth 100000 in decide⟩ rfl
      (by set_option maxRecDepth 100000 in decide) (by decide) (by decide) (by decide)).1,
   (C5_jump_target_reentered.2.2.2.2
      { program := [] :: "push\x003".toList :: "ifeq 0".toList :: List.replicate 497 [],
        stack := [3], lineNum := 2,
        cmd := ⟨some "push".toList, some "3".toList⟩, erange := false, out := [] }
      "ifeq 0".toList "ifeq".toList "0".toList 0
      (Or.inl rfl) ⟨by set_option maxRecDepth 100000 in decide,
       by set_option maxRecDepth 100000 in decide⟩ rfl
      (by set_option maxRecDepth 100000 in decide) (by decide) (by decide) (by decide)).2.1⟩

/-- C6, amended: in every state whose line store is one of `MAX_FILESIZE`
buffers with strings of at most fourteen characters, for every line whose
tokens, whatever the number of spaces before, between and after them, are
`push`, `ifeq` or `jump` and an operand that, after the white-space characters
that `strtol` skips at its front (tab, newline, vertical tab, form feed,
carriage return), is not entirely a base-10 integer numeral, `execute` returns
2 and the stack is exactly what it was before the line. The second part states
that a line made of spaces, the mnemonic, one or more spaces, the operand and
spaces has these two tokens. -/
theorem C6_not_an_integer :
    (∀ (m : Machine) (line mn op : List Char),
      (mn = "push".toList ∨ mn = "ifeq".toList ∨ mn = "jump".toList) →
      heldStore m.program → m.program[m.lineNum]? = some line →
      (tokenize line).1 = [mn, op] → isNumeral (op.dropWhile isspace) = false →
      ∃ m1, step m = .returned 2 m1 ∧ m1.stack = m.stack) ∧
    (∀ (a b c : Nat) (mn op : List Char), isToken mn = true → isToken op = true →
      (tokenize (spaces a ++ (mn ++ ' ' :: (spaces b ++ (op ++ spaces c))))).1 = [mn, op]) := by
  refine ⟨?_, fun a b c mn op h1 h2 => tokenize_spaced a b c mn op h1 h2⟩
  intro m line mn op hmn hh h ht hbad
  have hline := heldStore_line _ _ _ hh h
  have h4 : mn.length = 4 := by
    rcases hmn with rfl | rfl | rfl <;> decide
  obtain ⟨hne, hl⟩ := operand_fits line mn op hline ht h4
  have hend := strtol_endp_ne_nil op hne hbad
  have hmnl : mn.length < CMD_WIDTH := by
    show mn.length < 10
    omega
  have hst := step_tokens m line mn [op] h ht (by simp) hmnl (by simpa using hl)
  rcases hmn with rfl | rfl | rfl
  · obtain ⟨m1, hr, hs⟩ := readOperand_bad { m with
      program := m.program.set m.lineNum (tokenize line).2,
      cmd := ⟨some "push".toList, some op⟩ } op rfl hend
    rw [hst, finish, dispatch_push _ rfl, hr]
    exact ⟨m1, rfl, hs⟩
  · obtain ⟨m1, hr, hs⟩ := readOperand_bad { m with
      program := m.program.set m.lineNum (tokenize line).2,
      cmd := ⟨some "ifeq".toList, some op⟩ } op rfl hend
    rw [hst, finish, dispatch_ifeq _ rfl, hr]
    exact ⟨m1, rfl, hs⟩
  · obtain ⟨m1, hr, hs⟩ := readOperand_bad { m with
      program := m.program.set m.lineNum (tokenize line).2,
      cmd := ⟨some "jump".toList, some op⟩ } op rfl hend
    rw [hst, finish, dispatch_jump _ rfl, hr]
    exact ⟨m1, rfl, hs⟩

/-- C6, witness: the line of two spaces, `push`, three spaces, `12x` and one
space, reached with the stack `4`, returns 2 and leaves the 4. -/
theorem C6_not_an_integer_witness :
    (heldStore ([] :: "push\x004".toList :: "  push   12x ".toList :: List.replicate 497 []) ∧
      "  push   12x ".toList
        = spaces 2 ++ ("push".toList ++ ' ' :: (spaces 2 ++ ("12x".toList ++ spaces 1))) ∧
      (tokenize "  push   12x ".toList).1 = ["push".toList, "12x".toList] ∧
      isNumeral ("12x".toList.dropWhile isspace) = false) ∧
    ∃ m1, step { program := [] :: "push\x004".toList :: "  push   12x ".toList
                   :: List.replicate 497 [],
                 stack := [4], lineNum := 2,
                 cmd := ⟨some "push".toList, some "4".toList⟩, erange := false, out := [] }
        = .returned 2 m1 ∧
      m1.stack = [4] :=
  ⟨⟨⟨by set_option maxRecDepth 100000 in decide,
       by set_option maxRecDepth 100000 in decide⟩, by decide, by decide, by decide⟩,
   C6_not_an_integer.1
      { program := [] :: "push\x004".toList :: "  push   12x ".toList :: List.replicate 497 [],
        stack := [4], lineNum := 2,
        cmd := ⟨some "push".toList, some "4".toList⟩, erange := false, out := [] }
      "  push   12x ".toList "push".toList "12x".toList
      (Or.inl rfl)
      ⟨by set_option maxRecDepth 100000 in decide, by set_option maxRecDepth 100000 in decide⟩
      (by set_option maxRecDepth 100000 in decide) (by decide) (by decide)⟩

/-- C6, counterexample: in the file of the one line `push`, space, tab, `5`
the operand is the token tab-`5`, which is not entirely a numeral; `strtol`
skips the tab, and `execute` pushes 5 and returns 0 instead of returning 2. -/
theorem C6_counterexample :
    parse "push \t5\n".toList (buffers fun _ => [])
      = some ([] :: "push \t5".toList :: List.replicate 498 []) ∧
    (tokenize "push \t5".toList).1 = ["push".toList, "\t5".toList] ∧
    isNumeral "\t5".toList = false ∧
    execute 2 ([] :: "push \t5".toList :: List.replicate 498 [])
      = .returned 0 { program := [] :: "push\x00\t5".toList :: List.replicate 498 [],
                      stack := [5], lineNum := 2,
                      cmd := ⟨some "push".toList, some "\t5".toList⟩, erange := false,
                      out := [] } := by
  refine ⟨?_, by decide, by decide, ?_⟩
  · set_option maxRecDepth 100000 in decide
  · set_option maxRecDepth 100000 in decide

/-- C7, the code at the failing input: on the empty stack `pop` prints its
message and exits, and on a stack of one node it returns the node and leaves
the empty stack; on every longer stack it releases the top node and then reads
that node's `next` field, so the run of `push 1`, `push 2`, `pop` leaves defined
behaviour instead of going on with the stack `1`. -/
theorem C7_pop_reads_freed_node :
    pop [] = .exits ∧ (∀ x : Int, pop [x] = .value x []) ∧
    (∀ (x y : Int) (s : List Int), pop (x :: y :: s) = .freedRead) ∧
    execute 1 [[], "pop".toList, []]
      = .exited { program := [[], "pop".toList, []], stack := [], lineNum := 1,
                  cmd := ⟨some "pop".toList, none⟩, erange := false,
                  out := "Cannot pop from an empty stack\n".toList } ∧
    execute 3 [[], "push 1".toList, "pop".toList, []]
      = .returned 0 { program := [[], "push\x001".toList, "pop".toList, []], stack := [],
                      lineNum := 3, cmd := ⟨some "pop".toList, some "1".toList⟩,
                      erange := false, out := [] } ∧
    execute 3 [[], "push 1".toList, "push 2".toList, "pop".toList, []] = .undefined := by
  refine ⟨rfl, fun _ => rfl, fun _ _ _ => rfl, by decide, by decide, by decide⟩

/-- C8: for every non-empty stack, the pass over a line `dup` goes on with a
stack that is exactly one element higher, whose top equals the old top, and
whose elements below the top are the old stack, old top included. -/
theorem C8_dup (m : Machine) (x : Int) (s : List Int)
    (h : m.program[m.lineNum]? = some "dup".toList) (hs : m.stack = x :: s) :
    ∃ m1, step m = .running m1 ∧ m1.stack.length = m.stack.length + 1 ∧
      m1.stack.head? = some x ∧ m1.stack.tail = m.stack ∧ m1.lineNum = m.lineNum + 1 := by
  refine ⟨{ m with
      cmd := { m.cmd with row0 := some "dup".toList },
      stack := x :: x :: s,
      lineNum := m.lineNum + 1 }, ?_, ?_, rfl, ?_, rfl⟩
  · rw [step_one m _ (by decide) (by decide) h, finish, dispatch_dup _ rfl]
    simp only [hs, push]
  · simp [hs]
  · simp [hs]

/-- C8, witness: `dup` on the stack `6, 1` gives `6, 6, 1`. -/
theorem C8_dup_witness :
    ∃ m1, step { program := [[], "dup".toList], stack := [6, 1], lineNum := 1,
                 cmd := ⟨none, none⟩, erange := false, out := [] } = .running m1 ∧
      m1.stack.length = 2 + 1 ∧ m1.stack.head? = some 6 ∧ m1.stack.tail = [6, 1] ∧
      m1.lineNum = 1 + 1 :=
  C8_dup
    { program := [[], "dup".toList], stack := [6, 1], lineNum := 1,
      cmd := ⟨none, none⟩, erange := false, out := [] }
    6 [1] (by decide) rfl

/-- C9, the code on every line of three or more tokens, whatever the first
token is: `execute` copies the third token to `cmd[2]`, a row that
`char cmd[2][10]` does not have, before it tests `i > 2`, so the pass is
outside the behaviour C defines instead of returning 3. -/
theorem C9_too_many_tokens_overflow (m : Machine) (line : List Char)
    (h : m.program[m.lineNum]? = some line) (h3 : 3 ≤ (tokenize line).1.length) :
    step m = .undefined := by
  have hc : ∀ (c : Cmd) (t1 t2 t3 : List Char) (ts : List (List Char)),
      copyTokens c 0 (t1 :: t2 :: t3 :: ts) = none := by
    intro c t1 t2 t3 ts
    simp only [copyTokens]
    cases h1 : strcpyCmd c 0 t1 with
    | none => rfl
    | some c1 =>
      simp only
      cases h2 : strcpyCmd c1 (0 + 1) t2 with
      | none => rfl
      | some c2 =>
        simp only
        have h3 : strcpyCmd c2 (0 + 1 + 1) t3 = none :=
          strcpyCmd_beyond c2 _ t3 (by decide)
        rw [h3]
  unfold step
  rw [h]
  simp only
  rcases ht : (tokenize line).1 with _ | ⟨t1, _ | ⟨t2, _ | ⟨t3, ts⟩⟩⟩
  · rw [ht] at h3; simp at h3
  · rw [ht] at h3; simp at h3
  · rw [ht] at h3; simp at h3
  · simp only [hc]

/-- C9, witness: the line `push 1 2` has three tokens, and the pass over it
ends outside the behaviour C defines. -/
theorem C9_too_many_tokens_overflow_witness :
    (tokenize "push 1 2".toList).1.length = 3 ∧
    step (initial [[], "push 1 2".toList, []]) = .undefined :=
  ⟨by decide,
   C9_too_many_tokens_overflow (initial [[], "push 1 2".toList, []])
     "push 1 2".toList (by decide) (by decide)⟩

/-- C10, the code at the failing input: after `push 7`, the line `push` without
an operand is no error; `cmd[1]` still holds the `7` of the line before, which
is pushed again, and `execute` returns 0. Likewise `ifeq` without an operand,
after `jump 4`, pops a value and goes on, and `jump` without an operand, after
`jump 3`, transfers control to line 3 again and again. -/
theorem C10_missing_operand_reuses_cmd :
    execute 3 [[], "push 7".toList, "push".toList, []]
      = .returned 0 { program := [[], "push\x007".toList, "push".toList, []],
                      stack := [7, 7], lineNum := 3,
                      cmd := ⟨some "push".toList, some "7".toList⟩, erange := false,
                      out := [] } ∧
    execute 4 [[], "push 1".toList, "jump 4".toList, "push 9".toList, "ifeq".toList, []]
      = .returned 0 { program := [[], "push\x001".toList, "jump\x004".toList,
                        "push 9".toList, "ifeq".toList, []],
                      stack := [], lineNum := 5,
                      cmd := ⟨some "ifeq".toList, some "4".toList⟩, erange := false,
                      out := [] } ∧
    execute 9 [[], "jump 3".toList, "push 9".toList, "jump".toList, []]
      = .running { program := [[], "jump\x003".toList, "push 9".toList, "jump".toList, []],
                   stack := [], lineNum := 3,
                   cmd := ⟨some "jump".toList, some "3".toList⟩, erange := false,
                   out := [] } := by
  decide

/-! ## Claims, second group -/

/-- C11, amended: when the program counter visits a line that contains zero
tokens (empty, or only spaces), `execute` ends at once and returns 0, as it
does at the end of the program: the first `strtok` returns a null pointer and
the `while` condition fails. No message is printed, the stack is left as it
is, and no later line is executed. -/
theorem C11_blank_line_ends_run (m : Machine) (line : List Char)
    (h : m.program[m.lineNum]? = some line) (ht : (tokenize line).1 = []) :
    ∃ m1, step m = .returned 0 m1 ∧ (∀ n, run (n + 1) m = .returned 0 m1) ∧
      m1.stack = m.stack ∧ m1.out = m.out ∧ m1.lineNum = m.lineNum := by
  have hs : step m
      = .returned 0 { m with program := m.program.set m.lineNum (tokenize line).2 } := by
    simp only [step, h, ht]
  refine ⟨_, hs, ?_, rfl, rfl, rfl⟩
  intro n
  simp only [run, hs]

/-- C11, witness: the pass over a line of three spaces returns 0. -/
theorem C11_blank_line_ends_run_witness :
    (tokenize "   ".toList).1 = [] ∧
    ∃ m1, step { program := [[], "   ".toList, "print".toList], stack := [4], lineNum := 1,
                 cmd := ⟨none, none⟩, erange := false, out := [] } = .returned 0 m1 ∧
      (∀ n, run (n + 1) { program := [[], "   ".toList, "print".toList], stack := [4],
                          lineNum := 1, cmd := ⟨none, none⟩, erange := false, out := [] }
        = .returned 0 m1) ∧
      m1.stack = [4] ∧ m1.out = [] ∧ m1.lineNum = 1 :=
  ⟨by decide,
   C11_blank_line_ends_run
     { program := [[], "   ".toList, "print".toList], stack := [4], lineNum := 1,
       cmd := ⟨none, none⟩, erange := false, out := [] }
     "   ".toList (by decide) (by decide)⟩

/-- C11, counterexample: in the program `push 1`, one space, `push 2` the
visit of line 2 ends `execute` with the return code 0 and `push 2` is never
executed; and the process of the file whose first line is one space and whose
second line is `push 1` exits with `EXIT_SUCCESS`. -/
theorem C11_counterexample :
    execute 3 [[], "push 1".toList, " ".toList, "push 2".toList, []]
      = .returned 0 { program := [[], "push\x001".toList, " ".toList, "push 2".toList, []],
                      stack := [1], lineNum := 2,
                      cmd := ⟨some "push".toList, some "1".toList⟩, erange := false,
                      out := [] } ∧
    main 2 (some " \npush 1\n".toList) (fun _ => []) 3 = .exit EXIT_SUCCESS := by
  refine ⟨by decide, ?_⟩
  set_option maxRecDepth 100000 in decide

/-- C12, the code on every line of two tokens: `strtok` is called on the stored
line itself and overwrites the space after the first token with NUL, so after
the pass, however it ends, the stored line is the first token, NUL, the second
token, and the line store is not what it was after loading. -/
theorem C12_strtok_writes_stored_line (m m1 : Machine) (w1 w2 : List Char)
    (h1 : isToken w1 = true) (h2 : isToken w2 = true)
    (h : m.program[m.lineNum]? = some (w1 ++ ' ' :: w2))
    (hm : (step m).machine? = some m1) :
    m1.program[m.lineNum]? = some (w1 ++ '\x00' :: w2) ∧ m1.program ≠ m.program := by
  have hp := step_program m m1 _ h hm
  rw [tokenize_two w1 w2 h1 h2] at hp
  have hlt : m.lineNum < m.program.length := by
    rcases Nat.lt_or_ge m.lineNum m.program.length with hl | hl
    · exact hl
    · rw [List.getElem?_eq_none_iff.2 hl] at h; cases h
  have hget : m1.program[m.lineNum]? = some (w1 ++ '\x00' :: w2) := by
    rw [hp, List.getElem?_set]
    simp [hlt]
  refine ⟨hget, ?_⟩
  intro heq
  rw [heq, h] at hget
  injection hget with hget
  have := List.append_cancel_left hget
  injection this with hc
  exact absurd hc (by decide)

/-- C12, witness: after the pass over the one line `push 3` the stored line
reads `push`, NUL, `3`, which splits into the single token `push`. -/
theorem C12_strtok_writes_stored_line_witness :
    (step (initial [[], "push 3".toList, []])).machine?
      = some { program := [[], "push\x003".toList, []], stack := [3], lineNum := 2,
               cmd := ⟨some "push".toList, some "3".toList⟩, erange := false, out := [] } ∧
    (tokenize "push\x003".toList).1 = ["push".toList] ∧
    ([[], "push\x003".toList, []] : List (List Char))[1]?
      = some ("push".toList ++ '\x00' :: "3".toList) ∧
    ([[], "push\x003".toList, []] : List (List Char)) ≠ [[], "push 3".toList, []] :=
  ⟨by decide, by decide,
   C12_strtok_writes_stored_line (initial [[], "push 3".toList, []])
     { program := [[], "push\x003".toList, []], stack := [3], lineNum := 2,
       cmd := ⟨some "push".toList, some "3".toList⟩, erange := false, out := [] }
     "push".toList "3".toList (by decide) (by decide) (by decide) (by decide)⟩

/-- C13, amended: when `execute` returns with the stack empty, the exit status
of the process is `EXIT_SUCCESS` (0) exactly when it returned 0, and it is the
one value `EXIT_FAILURE` (1) for every other return code, so the status does
not tell the error kinds apart; the exit of `pop` on the empty stack gives
`EXIT_FAILURE` as well. -/
theorem C13_exit_status (text : List Char) (fresh : Nat → List Char) (fuel : Nat)
    (program : List (List Char)) (hp : parse text (buffers fresh) = some program) :
    (∀ code m, execute fuel program = .returned code m → m.stack = [] →
      main 2 (some text) fresh fuel = .exit (if code = 0 then EXIT_SUCCESS else EXIT_FAILURE) ∧
      (main 2 (some text) fresh fuel = .exit 0 ↔ code = 0)) ∧
    (∀ m, execute fuel program = .exited m →
      main 2 (some text) fresh fuel = .exit EXIT_FAILURE) := by
  constructor
  · intro code m he hs
    have hm : main 2 (some text) fresh fuel
        = .exit (if code = 0 then EXIT_SUCCESS else EXIT_FAILURE) := by
      simp only [main, hp, he, hs]
      by_cases hc : code = 0 <;> simp [hc]
    refine ⟨hm, ?_⟩
    rw [hm]
    by_cases hc : code = 0 <;> simp [hc]
  · intro m he
    simp only [main, hp, he]
    simp

/-- C13, witness: the file `jump 0`, where `execute` returns 4 with the stack
empty and the process exits with 1. -/
theorem C13_exit_status_witness :
    parse "jump 0\n".toList (buffers fun _ => [])
      = some ([] :: "jump 0".toList :: List.replicate 498 []) ∧
    (∃ m, execute 2 ([] :: "jump 0".toList :: List.replicate 498 []) = .returned 4 m ∧
      m.stack = []) ∧
    main 2 (some "jump 0\n".toList) (fun _ => []) 2 = .exit EXIT_FAILURE := by
  have hp : parse "jump 0\n".toList (buffers fun _ => [])
      = some ([] :: "jump 0".toList :: List.replicate 498 []) := by
    set_option maxRecDepth 100000 in decide
  have he : execute 2 ([] :: "jump 0".toList :: List.replicate 498 [])
      = .returned 4 { program := [] :: "jump\x000".toList :: List.replicate 498 [],
                      stack := [], lineNum := 1,
                      cmd := ⟨some "jump".toList, some "0".toList⟩, erange := false,
                      out := "Line 1: Cannot jump to line 0\n".toList } := by
    set_option maxRecDepth 100000 in decide
  exact ⟨hp, ⟨_, he, rfl⟩,
    ((C13_exit_status "jump 0\n".toList (fun _ => []) 2 _ hp).1 4 _ he rfl).1⟩

/-- C13, counterexample: for the files `foo` (unknown instruction), `push x`
(not an integer) and `jump 0` (invalid jump target) `execute` returns the
different codes 1, 2 and 4, and the three processes exit with the same
status 1. -/
theorem C13_counterexample :
    (execute 2 ([] :: "foo".toList :: List.replicate 498 [])).code? = some 1 ∧
    (execute 2 ([] :: "push x".toList :: List.replicate 498 [])).code? = some 2 ∧
    (execute 2 ([] :: "jump 0".toList :: List.replicate 498 [])).code? = some 4 ∧
    main 2 (some "foo\n".toList) (fun _ => []) 2 = .exit 1 ∧
    main 2 (some "push x\n".toList) (fun _ => []) 2 = .exit 1 ∧
    main 2 (some "jump 0\n".toList) (fun _ => []) 2 = .exit 1 := by
  refine ⟨?_, ?_, ?_, ?_, ?_, ?_⟩ <;> (set_option maxRecDepth 100000 in decide)

/-- C14, the code on every `push` line whose operand `strtol` converts to a
value outside `int`: such an operand has ten characters or more, and its copy
into the ten bytes of `cmd[1]` writes past the row, so the pass leaves defined
behaviour instead of returning 2. The assignment of the `long` to `int num`
has no range test: 2147483648 becomes -2147483648 and 4294967296 becomes 0.
Read from a file, the line `push 2147483648` is cut by `fgets` after fourteen
characters: `execute` pushes 214748364 and returns 1 at the next line, `8`. -/
theorem C14_out_of_range_operand :
    (∀ (m : Machine) (op : List Char), isToken op = true →
      m.program[m.lineNum]? = some ("push".toList ++ ' ' :: op) →
      ((strtol op).value < -2147483648 ∨ 2147483647 < (strtol op).value) →
      step m = .undefined) ∧
    toInt32 2147483648 = -2147483648 ∧ toInt32 4294967296 = 0 ∧
    parse "push 2147483648\n".toList (buffers fun _ => [])
      = some ([] :: "push 214748364".toList :: "8".toList :: List.replicate 497 []) ∧
    execute 2 ([] :: "push 214748364".toList :: "8".toList :: List.replicate 497 [])
      = .returned 1
        { program := [] :: "push\x00214748364".toList :: "8".toList :: List.replicate 497 [],
          stack := [214748364], lineNum := 2,
          cmd := ⟨some "8".toList, some "214748364".toList⟩, erange := false,
          out := "Error: 8 is not a valid command\n".toList } := by
  refine ⟨?_, by decide, by decide, ?_, ?_⟩
  · intro m op hop h hv
    have hl : CMD_WIDTH ≤ op.length := by
      by_contra hlt
      have := strtol_short op (not_le.1 hlt)
      omega
    exact step_operand_overflow m _ op (by decide) hop hl h
  · set_option maxRecDepth 100000 in decide
  · set_option maxRecDepth 100000 in decide

/-- C14, witness: the pass over `push 2147483648`. -/
theorem C14_out_of_range_operand_witness :
    (isToken "2147483648".toList = true ∧
      ((strtol "2147483648".toList).value < -2147483648 ∨
        2147483647 < (strtol "2147483648".toList).value)) ∧
    step (initial [[], "push 2147483648".toList, []]) = .undefined :=
  ⟨by decide,
   C14_out_of_range_operand.1 (initial [[], "push 2147483648".toList, []])
     "2147483648".toList (by decide) (by decide) (by decide)⟩

/-- C15: (the code at the failing input) the file of the one line
`x 1234567890ab` (fourteen characters, no newline behind them) is stored as it
stands; the line has two tokens and the first is no mnemonic, but the copy of
the second token into `cmd[1]` writes thirteen bytes where ten are left, past
the end of `cmd`, before the mnemonic is looked at: the pass leaves defined
behaviour instead of returning 1, and so does every pass over a line whose
second token has ten characters or more. In every state whose line store is
one of `MAX_FILESIZE` buffers with strings of at most fourteen characters, for
every line of one token, or of two tokens the second of which fits `cmd[1]`,
whose first token is none of the seven mnemonics (compared exactly, so `PUSH`
is none), `execute` returns 1 and the stack is what it was; the line
`abcdefghijkl` is such a line. And `execute` returns 1 on no line whose first
token is one of the seven. -/
theorem C15_unknown_instruction :
    parse "x 1234567890ab".toList (buffers fun _ => [])
      = some ([] :: "x 1234567890ab".toList :: List.replicate 498 []) ∧
    (tokenize "x 1234567890ab".toList).1 = ["x".toList, "1234567890ab".toList] ∧
    "x".toList ∉ mnemonics ∧
    execute 1 ([] :: "x 1234567890ab".toList :: List.replicate 498 []) = .undefined ∧
    main 2 (some "x 1234567890ab".toList) (fun _ => []) 1 = .undefined ∧
    (∀ (m : Machine) (line t o : List Char), m.program[m.lineNum]? = some line →
      (tokenize line).1 = [t, o] → CMD_WIDTH ≤ o.length → step m = .undefined) ∧
    (∀ (m : Machine) (line t : List Char) (ts : List (List Char)),
      heldStore m.program → m.program[m.lineNum]? = some line →
      (tokenize line).1 = t :: ts → ts.length ≤ 1 → (∀ o ∈ ts, o.length < CMD_WIDTH) →
      t ∉ mnemonics →
      ∃ m1, step m = .returned 1 m1 ∧ m1.stack = m.stack) ∧
    "PUSH".toList ∉ mnemonics ∧
    execute 1 ([] :: "abcdefghijkl".toList :: List.replicate 498 [])
      = .returned 1 { program := [] :: "abcdefghijkl".toList :: List.replicate 498 [],
                      stack := [], lineNum := 1,
                      cmd := ⟨some "abcdefghij".toList, some "kl".toList⟩, erange := false,
                      out := "Error: abcdefghijkl is not a valid command\n".toList } ∧
    (∀ (m m1 : Machine) (line : List Char), m.program[m.lineNum]? = some line →
      step m = .returned 1 m1 →
      ∃ t ts, (tokenize line).1 = t :: ts ∧ t ∉ mnemonics) := by
  refine ⟨?_, by decide, by decide, ?_, ?_, ?_, ?_, by decide, ?_, ?_⟩
  · set_option maxRecDepth 100000 in decide
  · set_option maxRecDepth 100000 in decide
  · set_option maxRecDepth 100000 in decide
  · intro m line t o h ht hl
    rw [step_pair m line t o h ht]
    have hc : copyTokens m.cmd 0 [t, o] = none := by
      simp only [copyTokens]
      cases hs : strcpyCmd m.cmd 0 t with
      | none => rfl
      | some c1 =>
        simp only
        rw [strcpyCmd_one_none c1 o hl]
    rw [hc]
  · intro m line t ts hh h ht hn hls hnot
    have hline := heldStore_line _ _ _ hh h
    have h15 : line.length < 15 := hline
    have ht20 : t.length < CMD_ROWS * CMD_WIDTH := by
      have := (tokenize_first line t ts ht).2
      show t.length < 2 * 10
      omega
    rcases ts with _ | ⟨o, _ | ⟨o2, ts⟩⟩
    · obtain ⟨cmd, hc, hs0⟩ := copyTokens_one_string0 m.cmd t ht20
      have hd := dispatch_unknown { m with
        program := m.program.set m.lineNum (tokenize line).2, cmd := cmd } t hs0 hnot
      refine ⟨{ m with
        program := m.program.set m.lineNum (tokenize line).2, cmd := cmd,
        out := m.out ++ badCommandMessage t }, ?_, rfl⟩
      simp only [step, h, ht, hc]
      simp only [show ¬ (2 < 1) by decide, if_false, finish, hd]
    · have ho := hls o (List.mem_cons_self _ _)
      obtain ⟨cmd, hc, -, hs0⟩ := copyTokens_two_string0 m.cmd t o ht20 ho
      have hx : (if t.length < CMD_WIDTH then t else t.take CMD_WIDTH ++ o) ∉ mnemonics := by
        by_cases hs : t.length < CMD_WIDTH
        · rw [if_pos hs]; exact hnot
        · rw [if_neg hs]
          apply long_not_mnemonic
          have h10 : 10 ≤ t.length := not_lt.1 hs
          rw [List.length_append, List.length_take]
          show 10 ≤ min 10 t.length + o.length
          omega
      have hd := dispatch_unknown { m with
        program := m.program.set m.lineNum (tokenize line).2, cmd := cmd } _ hs0 hx
      refine ⟨{ m with
        program := m.program.set m.lineNum (tokenize line).2, cmd := cmd,
        out := m.out ++ badCommandMessage
          (if t.length < CMD_WIDTH then t else t.take CMD_WIDTH ++ o) }, ?_, rfl⟩
      rw [step_pair m line t o h ht, hc]
      simp only [finish, hd]
    · simp at hn
  · set_option maxRecDepth 100000 in decide
  · intro m m1 line h h1
    exact step_returned_one m m1 line h h1

/-- C15, witness: the line `PUSH 5` with the stack `2` returns 1 and leaves
the 2. -/
theorem C15_unknown_instruction_witness :
    (heldStore ([] :: "push\x002".toList :: "PUSH 5".toList :: List.replicate 497 []) ∧
      (tokenize "PUSH 5".toList).1 = ["PUSH".toList, "5".toList] ∧
      "PUSH".toList ∉ mnemonics) ∧
    ∃ m1, step { program := [] :: "push\x002".toList :: "PUSH 5".toList
                   :: List.replicate 497 [],
                 stack := [2], lineNum := 2,
                 cmd := ⟨some "push".toList, some "2".toList⟩, erange := false, out := [] }
        = .returned 1 m1 ∧
      m1.stack = [2] :=
  ⟨⟨⟨by set_option maxRecDepth 100000 in decide,
       by set_option maxRecDepth 100000 in decide⟩, by decide, by decide⟩,
   C15_unknown_instruction.2.2.2.2.2.2.1
     { program := [] :: "push\x002".toList :: "PUSH 5".toList :: List.replicate 497 [],
       stack := [2], lineNum := 2,
       cmd := ⟨some "push".toList, some "2".toList⟩, erange := false, out := [] }
     "PUSH 5".toList "PUSH".toList ["5".toList]
     ⟨by set_option maxRecDepth 100000 in decide, by set_option maxRecDepth 100000 in decide⟩
     (by set_option maxRecDepth 100000 in decide) (by decide) (by decide)
     (by decide) (by decide)⟩

/-- C16, the code on `dup` with the empty stack: `push(stack->top->data)` reads
through the null `top`; there is no test for the empty stack as in `pop`, no
message and no exit, and the pass leaves defined behaviour. -/
theorem C16_dup_empty_null_read (m : Machine)
    (h : m.program[m.lineNum]? = some "dup".toList) (hs : m.stack = []) :
    step m = .undefined := by
  rw [step_one m _ (by decide) (by decide) h, finish, dispatch_dup _ rfl]
  simp only [hs]

/-- C16, witness: the program whose first line is `dup`. -/
theorem C16_dup_empty_null_read_witness :
    (initial [[], "dup".toList, []]).stack = [] ∧
    step (initial [[], "dup".toList, []]) = .undefined :=
  ⟨rfl, C16_dup_empty_null_read (initial [[], "dup".toList, []]) (by decide) rfl⟩

/-- C17: (the code at the failing input) the lines `push 4`, `dup`, `pop` are
valid and their stack preconditions hold, and their effects in order give the
stack `4`; `execute` runs lines 1 and 2, and the `pop` of line 3 finds two
nodes, releases the top one and reads its `next` field, so the run is outside
the behaviour C defines instead of returning 0. For every program of `N` lines
that are `push n` with an operand that fits `cmd[1]`, `print`, `dup` on a
non-empty stack or `pop` on a stack of one node, followed by a line without
text: after `k` passes (`k ≤ N`) the loop is at line `k + 1` with the stack
that the first `k` effects give, so the lines 1 to `N` are executed once each
and in order; the next pass returns 0 at line `N + 1`; and the final stack is
the result of the `N` effects applied in order to the empty stack. -/
theorem C17_straight_line :
    (effects [.push 4, .dup, .pop] [] = some [4] ∧
      [Instruction.push 4, .dup, .pop].map lineOf
        = ["push 4".toList, "dup".toList, "pop".toList] ∧
      run 2 (initial [[], "push 4".toList, "dup".toList, "pop".toList, []])
        = .running { program := [[], "push\x004".toList, "dup".toList, "pop".toList, []],
                     stack := [4, 4], lineNum := 3,
                     cmd := ⟨some "dup".toList, some "4".toList⟩, erange := false,
                     out := [] } ∧
      execute 4 [[], "push 4".toList, "dup".toList, "pop".toList, []] = .undefined) ∧
    (∀ (is : List Instruction) (t : List Int) (l0 : List Char) (rest : List (List Char)),
      definedEffects is [] = some t →
      effects is [] = some t ∧
      (∀ k, k ≤ is.length → ∃ (mk : Machine) (u : List Int),
        run k (initial (l0 :: (is.map lineOf ++ [] :: rest))) = .running mk ∧
        mk.lineNum = k + 1 ∧ effects (is.take k) [] = some u ∧ mk.stack = u) ∧
      ∃ m : Machine,
        execute (is.length + 1) (l0 :: (is.map lineOf ++ [] :: rest)) = .returned 0 m ∧
        m.lineNum = is.length + 1 ∧ m.stack = t) := by
  refine ⟨by decide, ?_⟩
  intro is t l0 rest hd
  refine ⟨definedEffects_effects is [] t hd, ?_, ?_⟩
  · intro k hk
    have hsplit : is = is.take k ++ is.drop k := (List.take_append_drop k is).symm
    have hd2 : definedEffects (is.take k ++ is.drop k) [] = some t := by rw [← hsplit]; exact hd
    obtain ⟨u, hu, -⟩ := definedEffects_append _ _ _ _ hd2
    have hprog : (initial (l0 :: (is.map lineOf ++ [] :: rest))).program
        = [l0] ++ ((is.take k).map lineOf ++ ((is.drop k).map lineOf ++ [] :: rest)) := by
      have hm : is.map lineOf = (is.take k).map lineOf ++ (is.drop k).map lineOf := by
        rw [← List.map_append, List.take_append_drop]
      show l0 :: (is.map lineOf ++ [] :: rest)
        = [l0] ++ ((is.take k).map lineOf ++ ((is.drop k).map lineOf ++ [] :: rest))
      rw [← List.append_assoc ((is.take k).map lineOf), ← hm]
      rfl
    obtain ⟨mk, pre1, h1, h2, h3, h4, -, -⟩ := run_defined (is.take k)
      (initial (l0 :: (is.map lineOf ++ [] :: rest))) [l0]
      ((is.drop k).map lineOf ++ [] :: rest) u hprog rfl rfl hu
    have hlen : (is.take k).length = k := List.length_take_of_le hk
    rw [hlen] at h1
    refine ⟨mk, u, h1, ?_, definedEffects_effects _ _ _ hu, h2⟩
    rw [h3, h4, hlen]; simp; omega
  · obtain ⟨m1, pre1, h1, h2, h3, h4, h5, h6⟩ := run_defined is
      (initial (l0 :: (is.map lineOf ++ [] :: rest))) [l0] ([] :: rest) t rfl rfl rfl hd
    have hlen : m1.lineNum = is.length + 1 := by
      rw [h3, h4]; simp; omega
    have hg : m1.program[m1.lineNum]? = some [] := by
      rw [h6, h3, List.getElem?_append_right (le_refl _)]
      simp
    have hlast : step m1 = .returned 0 m1 := by
      simp only [step, hg]
      have ht : tokenize [] = ([], []) := by decide
      simp only [ht]
      rw [set_same _ _ _ hg]
    refine ⟨m1, ?_, hlen, h2⟩
    rw [execute, run_add, h1]
    simp only [run, hlast]

/-- C17, witness: the lines `push 4`, `pop`, `push 2`, `dup`, `print`. -/
theorem C17_straight_line_witness :
    definedEffects [.push 4, .pop, .push 2, .dup, .print] [] = some [2, 2] ∧
    effects [.push 4, .pop, .push 2, .dup, .print] [] = some [2, 2] ∧
    ∃ m : Machine,
      execute 6 ([] :: ([Instruction.push 4, .pop, .push 2, .dup, .print].map lineOf
        ++ [] :: [])) = .returned 0 m ∧
      m.lineNum = 6 ∧ m.stack = [2, 2] :=
  ⟨by decide,
   (C17_straight_line.2 [.push 4, .pop, .push 2, .dup, .print] [2, 2] [] [] (by decide)).1,
   (C17_straight_line.2 [.push 4, .pop, .push 2, .dup, .print] [2, 2] [] [] (by decide)).2.2⟩

/-- C19, the code at the failing input: in the program `push 3`, `jump 1` the
engine over the decoded array pushes 3 on both visits of line 1. `execute`
pushes 3 on the first visit and 1 on the second: by then the stored line reads
`push`, NUL, `3`, which splits into the one token `push` and decodes to no
instruction, and `cmd[1]` holds the operand `1` of the `jump`. -/
theorem C19_second_visit_differs :
    decodeAll [[], "push 3".toList, "jump 1".toList, []]
      = [.invalid, .push 3, .jump 1, .invalid] ∧
    decodedRun (decodeAll [[], "push 3".toList, "jump 1".toList, []]) 3 ⟨1, []⟩
      = ⟨2, [3, 3]⟩ ∧
    run 3 (initial [[], "push 3".toList, "jump 1".toList, []])
      = .running { program := [[], "push\x003".toList, "jump\x001".toList, []],
                   stack := [1, 3], lineNum := 2,
                   cmd := ⟨some "push".toList, some "1".toList⟩, erange := false,
                   out := [] } ∧
    (tokenize "push\x003".toList).1 = ["push".toList] ∧
    decodeTokens (tokenize "push\x003".toList).1 = .invalid := by
  decide

/-- C20, the code at the failing input: in a line store of `MAX_FILESIZE = 500`
buffers (indices 0 to 499) the line `jump 500` passes the test
`num < 1 || num > MAX_FILESIZE`; the next pass fetches `program[500]`, one past
the last buffer, and leaves defined behaviour. -/
theorem C20_jump_500_leaves_store (m : Machine)
    (hlen : m.program.length = MAX_FILESIZE) (he : m.erange = false)
    (h : m.program[m.lineNum]? = some (jumpLine 500)) :
    ∃ m1, step m = .running m1 ∧ m1.lineNum = 500 ∧ m1.program.length = MAX_FILESIZE ∧
      m1.program[m1.lineNum]? = none ∧ step m1 = .undefined := by
  have hv : strtol (decimal 500) = ⟨500, [], false⟩ := by decide
  have hst := step_jump m (decimal 500) (by decide) (by decide) (by rw [hv]) he h
  rw [hv] at hst
  simp only at hst
  rw [if_neg (by decide)] at hst
  have hl : (m.program.set m.lineNum ("jump".toList ++ '\x00' :: decimal 500)).length
      = 500 := by rw [List.length_set]; exact hlen
  have hnone : (m.program.set m.lineNum ("jump".toList ++ '\x00' :: decimal 500))[500]?
      = none := by
    rw [List.getElem?_eq_none_iff]; omega
  refine ⟨_, hst, rfl, hl, hnone, ?_⟩
  simp only [step]
  rw [show ((500 : Int) - 1).toNat + 1 = 500 by decide, hnone]

/-- C20, witness: the store that `main` builds for the file `jump 500`. -/
theorem C20_jump_500_leaves_store_witness :
    parse "jump 500\n".toList (buffers fun _ => [])
      = some ([] :: jumpLine 500 :: List.replicate 498 []) ∧
    (initial ([] :: jumpLine 500 :: List.replicate 498 [])).program.length = MAX_FILESIZE ∧
    ∃ m1, step (initial ([] :: jumpLine 500 :: List.replicate 498 [])) = .running m1 ∧
      m1.lineNum = 500 ∧ m1.program.length = MAX_FILESIZE ∧
      m1.program[m1.lineNum]? = none ∧ step m1 = .undefined :=
  ⟨by set_option maxRecDepth 100000 in decide,
   by set_option maxRecDepth 100000 in decide,
   C20_jump_500_leaves_store (initial ([] :: jumpLine 500 :: List.replicate 498 []))
     (by set_option maxRecDepth 100000 in decide) rfl (by decide)⟩

end Interp
